import Mathlib

/-!
# Ignite-Laboratories/core: the impulse clock, its kernels and the period regulator

A shallow embedding of `janos.go`, `impulse/actionPotential.go`,
`impulse/clock.go`, `impulse/context.go` and `main/regulation.go`.

Conventions of the embedding.

* `time.Time` and `time.Duration` are integers counting nanoseconds. The zero
  `time.Time` (the one for which `IsZero` holds) is `0`; `t.Sub u` is `t - u`.
* Go's `int` and `int64` are `Int`. The quantities of this program (beat
  numbers, periods around `100000`, nanosecond durations) stay far inside the
  64-bit range, where machine arithmetic and integer arithmetic agree. The
  `uint64` identifier counter is a natural number reduced modulo `2 ^ 64`.
* A goroutine is an explicit event. `Execute` is one atomic step; the body of
  the goroutine it launches (`ap.action(ctx)`, then the two assignments to
  `lastCompletion` and `executing`) is the atomic step `complete`, which can
  only happen while such a goroutine exists.
* A closure that captures mutable variables (the `count` of `EveryNthBeat`) is
  a function on an explicit environment `σ`.
* What an action does with its context is outside the embedding; the contexts
  handed to actions are recorded in the order in which they are handed out.
-/

namespace core

/-- The function `NextID` of `janos.go` on the value of `masterId`:
`atomic.AddUint64(&masterId, 1)` adds one in 64-bit unsigned arithmetic, stores
the sum and returns it. The first component is the value returned, the second
the new value of `masterId`. -/
def NextID (masterId : Nat) : Nat × Nat :=
  ((masterId + 1) % 2 ^ 64, (masterId + 1) % 2 ^ 64)

/-- The values `n` consecutive calls of `NextID` return, oldest first. -/
def nextIDs (masterId : Nat) : Nat → List Nat
  | 0 => []
  | n + 1 => (NextID masterId).1 :: nextIDs (NextID masterId).2 n

end core

namespace impulse

/-- What a `Context` can observe through its `Kernel` interface value:
`GetID()` and `IsExecuting()`. -/
structure KernelRef where
  ID : Nat
  executing : Bool
  deriving DecidableEq, Repr

/-- The struct `Context` of `impulse/context.go` (the back reference to the
clock and the wait group pointer carry no data of their own). -/
structure Context where
  Moment : Int
  Delta : Int
  LastDuration : Int
  Beat : Int
  Kernel : KernelRef
  deriving DecidableEq, Repr

/-- The type `PotentialFunc`: a test of a context. The closure may read and
write the variables it captured, which are the environment `σ`. -/
abbrev PotentialFunc (σ : Type) := σ → Context → Bool × σ

/-- The struct `actionPotential` (the `action` field is the goroutine body,
see `KernelState.complete`). -/
structure actionPotential (σ : Type) where
  ID : Nat
  lastBeatMoment : Int
  lastCompletion : Int
  executing : Bool
  potential : PotentialFunc σ

/-- A kernel together with what surrounds it at run time: the variables its
potential closure captured, the number of live goroutines running its action,
and the record of what it has done so far (contexts handed to the action,
completion times written by finished actions, evaluations of the potential,
calls of `ctx.waitGroup.Done()`). -/
structure KernelState (σ : Type) where
  ap : actionPotential σ
  env : σ
  running : Nat
  handed : List Context
  completions : List Int
  potentialCalls : Nat
  doneSignals : Nat

/-- The function `newActionPotential`; `id` is the value `core.NextID()` returns. -/
def newActionPotential {σ : Type} (id : Nat) (potential : PotentialFunc σ) (env : σ) :
    KernelState σ :=
  { ap := { ID := id, lastBeatMoment := 0, lastCompletion := 0, executing := false,
            potential := potential }
    env := env
    running := 0
    handed := []
    completions := []
    potentialCalls := 0
    doneSignals := 0 }

/-- The method `GetID`. -/
def KernelState.GetID {σ : Type} (k : KernelState σ) : Nat := k.ap.ID

/-- The method `IsExecuting`. -/
def KernelState.IsExecuting {σ : Type} (k : KernelState σ) : Bool := k.ap.executing

/-- The interface value the loop stores in `ctx.Kernel`. -/
def KernelState.ref {σ : Type} (k : KernelState σ) : KernelRef :=
  { ID := k.GetID, executing := k.IsExecuting }

/-- The context the action receives: `Delta` and `LastDuration` are filled in
when `lastBeatMoment` is not the zero time (lines 60 to 63). -/
def actionContext {σ : Type} (ap : actionPotential σ) (ctx : Context) : Context :=
  if ap.lastBeatMoment ≠ 0 then
    { ctx with Delta := ctx.Moment - ap.lastBeatMoment
               LastDuration := ap.lastCompletion - ap.lastBeatMoment }
  else ctx

/-- The method `actionPotential.Execute`. The conjunction of line 58 is short
circuited: the potential is evaluated only when `executing` is false. -/
def Execute {σ : Type} (k : KernelState σ) (ctx : Context) : KernelState σ :=
  if k.ap.executing then
    { k with doneSignals := k.doneSignals + 1 }
  else
    let r := k.ap.potential k.env ctx
    if r.1 then
      { ap := { k.ap with executing := true, lastBeatMoment := ctx.Moment }
        env := r.2
        running := k.running + 1
        handed := k.handed ++ [actionContext k.ap ctx]
        completions := k.completions
        potentialCalls := k.potentialCalls + 1
        doneSignals := k.doneSignals + 1 }
    else
      { k with env := r.2
               potentialCalls := k.potentialCalls + 1
               doneSignals := k.doneSignals + 1 }

/-- The end of the goroutine launched at line 64: the action has returned at
time `now`, `lastCompletion` and `executing` are written. Without a live
goroutine there is nothing to finish and the state stays as it is. -/
def KernelState.complete {σ : Type} (k : KernelState σ) (now : Int) : KernelState σ :=
  if k.running = 0 then k
  else
    { k with ap := { k.ap with lastCompletion := now, executing := false }
             running := k.running - 1
             completions := k.completions ++ [now] }

/-- What can be done to one kernel: a call of `Execute` with some context, or
the end of its running action at some time. -/
inductive Call where
  | execute (ctx : Context)
  | finish (now : Int)
  deriving DecidableEq, Repr

/-- One call applied to a kernel. -/
def perform {σ : Type} (k : KernelState σ) : Call → KernelState σ
  | .execute ctx => Execute k ctx
  | .finish now => k.complete now

/-- An interleaving of `Execute` calls and action completions applied to a
kernel, oldest first. -/
def performAll {σ : Type} (k : KernelState σ) (calls : List Call) : KernelState σ :=
  calls.foldl perform k

/-- The context the loop of `Clock.Start` builds at lines 70 to 75. -/
def loopContext (now : Int) (beat : Int) : Context :=
  { Moment := now, Delta := 0, LastDuration := 0, Beat := beat,
    Kernel := { ID := 0, executing := false } }

/-- Lines 86 to 88 for one kernel: the context copy gets `Kernel = k` and
`k.Execute` runs on it. -/
def dispatch {σ : Type} (ctx : Context) (k : KernelState σ) : KernelState σ :=
  Execute k { ctx with Kernel := k.ref }

/-- What can happen to one kernel: a beat of the clock reaches it, or its
running action finishes. -/
inductive Event where
  | beat (moment : Int) (beat : Int)
  | complete (now : Int)
  deriving DecidableEq, Repr

/-- One event applied to a kernel. -/
def step {σ : Type} (k : KernelState σ) : Event → KernelState σ
  | .beat m b => dispatch (loopContext m b) k
  | .complete now => k.complete now

/-- A sequence of events applied to a kernel, oldest first. -/
def run {σ : Type} (k : KernelState σ) (evs : List Event) : KernelState σ :=
  evs.foldl step k

/-- The fields of a kernel agree with the record of what it has done: firings
and completions alternate, `lastBeatMoment` is the moment of the latest firing
(the zero time before the first), `lastCompletion` is the latest completion
once the action has finished, the first context handed out has no `Delta` and
no `LastDuration`, and each later one measures against the firing before it. -/
structure Consistent {σ : Type} (k : KernelState σ) : Prop where
  serial : k.running = if k.ap.executing then 1 else 0
  len : k.completions.length + (if k.ap.executing then 1 else 0) = k.handed.length
  moments : ∀ c ∈ k.handed, c.Moment ≠ 0
  lastBeat : k.ap.lastBeatMoment = (k.handed.getLast?.map Context.Moment).getD 0
  lastDone : k.ap.executing = false → k.completions.getLast?.getD 0 = k.ap.lastCompletion
  first : ∀ c, k.handed[0]? = some c → c.Delta = 0 ∧ c.LastDuration = 0
  later : ∀ j c, k.handed[j + 1]? = some c →
    ∃ p t, k.handed[j]? = some p ∧ k.completions[j]? = some t ∧
      c.Delta = c.Moment - p.Moment ∧ c.LastDuration = t - p.Moment

/-- The number of beats of a run that find the kernel idle (`executing` false
when the beat reaches it). -/
def idleBeats {σ : Type} (k : KernelState σ) : List Event → Nat
  | [] => 0
  | Event.beat m b :: evs =>
      (if k.ap.executing then 0 else 1) + idleBeats (step k (Event.beat m b)) evs
  | Event.complete now :: evs => idleBeats (step k (Event.complete now)) evs

/-- The potential closure of `activation.EveryNthBeat` (lines 104 to 116); its
environment is the captured variable `count`. -/
def everyNthPotential (n : Int) : PotentialFunc Int := fun count ctx =>
  if ctx.Kernel.executing then (false, count)
  else
    let count := count + 1
    if count >= n then (true, 0) else (false, count)

/-- The kernel `activation.EveryNthBeat` registers: `count := 0` and a new
action potential around the closure. -/
def EveryNthBeat (id : Nat) (n : Int) : KernelState Int :=
  newActionPotential id (everyNthPotential n) 0

/-- The struct `Clock`: its identifier, its writable period and the kernels
`c.kernels.All()` yields. The measured rate `BPL` is a floating-point quotient
and is left out. -/
structure Clock (σ : Type) where
  ID : Nat
  Period : Int
  kernels : List (KernelState σ)

/-- The function `NewClock`; `id` is the value `core.NextID()` returns. -/
def NewClock {σ : Type} (id : Nat) (period : Int) : Clock σ :=
  { ID := id, Period := period, kernels := [] }

/-- The clock and the local variables of `Clock.Start`, with the record of the
contexts the loop has built so far, oldest first. -/
structure LoopState (σ : Type) where
  clock : Clock σ
  beat : Int
  lastNow : Int
  pulseCount : Int
  pulseCountStart : Int
  built : List Context

/-- Lines 92 to 95: the beat counter after one iteration. -/
def nextBeat (period : Int) (beat : Int) : Int :=
  let beat := beat + 1
  if beat >= period then 0 else beat

/-- One iteration of the loop of `Clock.Start` (lines 68 to 96); `now` is the
value of `time.Now()` at line 71. Every kernel of the snapshot has finished
its `Execute` when `wg.Wait()` returns. -/
def iteration {σ : Type} (now : Int) (l : LoopState σ) : LoopState σ :=
  let pulseCount := l.pulseCount + 1
  let ctx := loopContext now l.beat
  { clock := { l.clock with kernels := l.clock.kernels.map (dispatch ctx) }
    beat := nextBeat l.clock.Period l.beat
    lastNow := ctx.Moment
    pulseCount := if pulseCount > 1024 then 0 else pulseCount
    pulseCountStart := if pulseCount > 1024 then ctx.Moment else l.pulseCountStart
    built := l.built ++ [ctx] }

/-- What can happen while the loop runs: an iteration, the end of the running
action of the kernel at position `i`, a write to the field `Period`. -/
inductive ClockEvent where
  | tick (now : Int)
  | complete (i : Nat) (now : Int)
  | setPeriod (p : Int)
  deriving DecidableEq, Repr

/-- One event applied to the running loop. -/
def clockStep {σ : Type} (l : LoopState σ) : ClockEvent → LoopState σ
  | .tick now => iteration now l
  | .complete i now =>
      { l with clock := { l.clock with
                 kernels := l.clock.kernels.modify (fun k => k.complete now) i } }
  | .setPeriod p => { l with clock := { l.clock with Period := p } }

/-- The method `Clock.Start` run through a sequence of events: lines 61 to 65
set the local variables (`t0` is the first `time.Now()`), each `tick` is one
pass through the loop while `core.Alive` holds. -/
def Start {σ : Type} (c : Clock σ) (t0 : Int) (evs : List ClockEvent) : LoopState σ :=
  evs.foldl clockStep
    { clock := c, beat := 0, lastNow := t0, pulseCount := 0, pulseCountStart := t0,
      built := [] }

/-- Whether an event writes the period. -/
def ClockEvent.writesPeriod : ClockEvent → Bool
  | .setPeriod _ => true
  | _ => false

/-- Whether an event is a loop iteration. -/
def ClockEvent.isTick : ClockEvent → Bool
  | .tick _ => true
  | _ => false

/-- The events of a clock run as the kernel at position `i` sees them; `beat`
and `period` are the beat counter and the period before the first event. -/
def kernelEvents (i : Nat) : Int → Int → List ClockEvent → List Event
  | _, _, [] => []
  | beat, period, .tick now :: evs =>
      Event.beat now beat :: kernelEvents i (nextBeat period beat) period evs
  | beat, period, .complete j now :: evs =>
      if j = i then Event.complete now :: kernelEvents i beat period evs
      else kernelEvents i beat period evs
  | beat, _, .setPeriod p :: evs => kernelEvents i beat p evs

/-- The moment of a beat event is a real clock reading, not the zero time. -/
def Event.realTime : Event → Bool
  | .beat m _ => m != 0
  | .complete _ => true

/-- The moment of a loop iteration is a real clock reading, not the zero time. -/
def ClockEvent.realTime : ClockEvent → Bool
  | .tick now => now != 0
  | _ => true

/-- Modelled from the spec: the type `atomic.Slice` of the package
`support/atomic`, which holds the kernels of a clock, is not among the sources.
The registry is the list of its elements; `Add` puts the new element behind
the others. -/
def Slice.Add {α : Type} (s : List α) (item : α) : List α := s ++ [item]

/-- Modelled from the spec: the method `RemoveIf` of the absent `atomic.Slice`
takes out every element the predicate holds for and keeps the others as they
are. -/
def Slice.RemoveIf {α : Type} (s : List α) (predicate : α → Bool) : List α :=
  s.filter (fun item => !predicate item)

/-- The method `Clock.AddKernel`. -/
def Clock.AddKernel {σ : Type} (c : Clock σ) (kernel : KernelState σ) : Clock σ :=
  { c with kernels := Slice.Add c.kernels kernel }

/-- The method `Clock.RemoveKernel`. -/
def Clock.RemoveKernel {σ : Type} (c : Clock σ) (kernel : KernelState σ) : Clock σ :=
  let id := kernel.GetID
  { c with kernels := Slice.RemoveIf c.kernels (fun k => k.GetID == id) }

/-- The potential closure of `activation.OnBeatNumber` (lines 157 to 159); it
captures no variable that changes, so it leaves the environment alone. -/
def beatNumberPotential {σ : Type} (beat : Int) : PotentialFunc σ := fun env ctx =>
  (ctx.Beat == beat, env)

/-- The method `activation.OnBeatNumber` on the clock the activation refers
to; `id` is the value `core.NextID()` returns. -/
def OnBeatNumber {σ : Type} [Inhabited σ] (c : Clock σ) (id : Nat) (beat : Int) : Clock σ :=
  c.AddKernel (newActionPotential id (beatNumberPotential beat) default)

/-- The method `activation.OnDownbeat`. -/
def OnDownbeat {σ : Type} [Inhabited σ] (c : Clock σ) (id : Nat) : Clock σ :=
  OnBeatNumber c id 0

/-- What a caller can ask to be created: a clock with a period, or a kernel
with a potential. -/
inductive Request (σ : Type) where
  | clock (period : Int)
  | kernel (potential : PotentialFunc σ) (env : σ)

/-- What has been created. -/
inductive Entity (σ : Type) where
  | clock (c : Clock σ)
  | kernel (k : KernelState σ)

/-- The identifier of a created clock or kernel. -/
def Entity.ID {σ : Type} : Entity σ → Nat
  | .clock c => c.ID
  | .kernel k => k.GetID

/-- One creation through `NewClock` or `newActionPotential`, each of which
calls `core.NextID()` once; the second component is `masterId` afterwards. -/
def create {σ : Type} (masterId : Nat) : Request σ → Entity σ × Nat
  | .clock period =>
      (Entity.clock (NewClock (core.NextID masterId).1 period), (core.NextID masterId).2)
  | .kernel potential env =>
      (Entity.kernel (newActionPotential (core.NextID masterId).1 potential env),
        (core.NextID masterId).2)

/-- Consecutive creations, oldest first. -/
def createAll {σ : Type} (masterId : Nat) : List (Request σ) → List (Entity σ)
  | [] => []
  | r :: rs => (create masterId r).1 :: createAll (create masterId r).2 rs

/-- Lines 85 to 90 with the counter of the `sync.WaitGroup`: for each kernel
of the snapshot the loop adds `1`, and the `Execute` it starts takes off one
for each call of `Done()`. The result is the kernels and the counter when
every `Execute` has returned. -/
def dispatchAll {σ : Type} (ctx : Context) :
    List (KernelState σ) → Int → List (KernelState σ) × Int
  | [], wg => ([], wg)
  | k :: ks, wg =>
      let added := wg + 1
      let after := dispatch ctx k
      let signalled := added - ((after.doneSignals : Int) - (k.doneSignals : Int))
      ((after :: (dispatchAll ctx ks signalled).1), (dispatchAll ctx ks signalled).2)

/-- The value of `Period` that the latest comparison of line 93 has read;
`current` is the period and `compared` that value before the first event. -/
def comparedPeriod : Int → Int → List ClockEvent → Int
  | _, compared, [] => compared
  | current, _, .tick _ :: evs => comparedPeriod current current evs
  | current, compared, .complete _ _ :: evs => comparedPeriod current compared evs
  | _, compared, .setPeriod p :: evs => comparedPeriod p compared evs

/-- Whether an event leaves the period positive: every write writes a
positive value. -/
def ClockEvent.positivePeriod : ClockEvent → Bool
  | .setPeriod p => decide (0 < p)
  | _ => true


end impulse

namespace regulation

/-- The constant `time.Second`, in nanoseconds. -/
def Second : Int := 1000000000

/-- The variable `desiredDuration`. -/
def desiredDuration : Int := Second / 100

/-- The struct `TemporalFragment`. -/
structure TemporalFragment where
  lastNow : Int
  lastDuration : Int
  delta : Int
  absDelta : Int
  deriving DecidableEq, Repr

/-- The function `NewTemporalFragment`. -/
def NewTemporalFragment (now : Int) (duration : Int) : TemporalFragment :=
  { lastNow := now
    lastDuration := duration
    delta := duration - desiredDuration
    absDelta := |duration| }

/-- The package variables `deviation` and `period`, and the field
`clock.Period`. -/
structure Regulator where
  deviation : Int
  period : Int
  clockPeriod : Int
  deriving DecidableEq, Repr

/-- The package variables as initialised at lines 27 to 29. -/
def Regulator.initial : Regulator :=
  { deviation := 5000, period := 100000, clockPeriod := 100000 }

/-- Lines 50 to 59: the running sum `avg` and the counter `count` after
`timeline.Range` has visited every stored fragment. -/
def sumAndCount (timeline : List TemporalFragment) : Int × Int :=
  timeline.foldl (fun acc frame => (acc.1 + frame.delta, acc.2 + 1)) (0, 0)

/-- Lines 60 to 62: the divisor, `count` with `0` replaced by `1`. -/
def divisor (timeline : List TemporalFragment) : Int :=
  if (sumAndCount timeline).2 = 0 then 1 else (sumAndCount timeline).2

/-- Lines 50 to 64: the average of the fragments' deltas; the quotient of Go's
integer division truncates toward zero. -/
def averageDelta (timeline : List TemporalFragment) : Int :=
  Int.tdiv (sumAndCount timeline).1 (divisor timeline)

/-- Lines 68 to 86: the value of `deviation` after the chain of comparisons. -/
def selectDeviation (deviation : Int) (absDelta : Int) : Int :=
  if absDelta > Second / 2 then 50000
  else if absDelta > Second / 5 then 40000
  else if absDelta > Second / 10 then 20000
  else if absDelta > Second / 25 then 1000
  else if absDelta > Second / 50 then 100
  else if absDelta > Second / 100 then 50
  else if absDelta > Second / 250 then 25
  else if absDelta > Second / 500 then 10
  else if absDelta > Second / 1000 then 0
  else deviation

/-- The function `Regulate`, on the fragments stored in `timeline`. -/
def Regulate (timeline : List TemporalFragment) (s : Regulator) : Regulator :=
  let delta := averageDelta timeline
  let absDelta := |delta|
  let deviation := selectDeviation s.deviation absDelta
  let period := if delta < 0 then s.period + deviation else s.period - deviation
  { deviation := deviation, period := period, clockPeriod := period }

/-- Consecutive invocations of `Regulate`, one per element of `cycles`. -/
def regulateAll (cycles : List (List TemporalFragment)) (s : Regulator) : Regulator :=
  cycles.foldl (fun st timeline => Regulate timeline st) s

/-- The step table as the specification words it: a function of the absolute
average deviation alone, with nine buckets. -/
def specStep (absDelta : Int) : Int :=
  if absDelta ≤ Second / 500 then 0
  else if absDelta ≤ Second / 250 then 10
  else if absDelta ≤ Second / 100 then 25
  else if absDelta ≤ Second / 50 then 50
  else if absDelta ≤ Second / 25 then 100
  else if absDelta ≤ Second / 10 then 1000
  else if absDelta ≤ Second / 5 then 20000
  else if absDelta ≤ Second / 2 then 40000
  else 50000

/-- The average as the specification words it: the sum of the signed
deviations divided by the number of samples, truncating toward zero, and `0`
when there is no sample. -/
def specAverage (timeline : List TemporalFragment) : Int :=
  if timeline.length = 0 then 0
  else Int.tdiv (timeline.map TemporalFragment.delta).sum (timeline.length : Int)

end regulation

/-! ## Kernels: re-entrancy -/

namespace impulse

theorem run_nil {σ : Type} (k : KernelState σ) : run k [] = k := rfl

theorem run_cons {σ : Type} (k : KernelState σ) (e : Event) (evs : List Event) :
    run k (e :: evs) = run (step k e) evs := rfl

theorem run_append {σ : Type} (k : KernelState σ) (evs evs2 : List Event) :
    run k (evs ++ evs2) = run (run k evs) evs2 := by
  simp [run, List.foldl_append]

/-- A property that holds of a kernel and is kept by every event holds after
every run. -/
theorem run_induction {σ : Type} (P : KernelState σ → Prop)
    (hstep : ∀ k e, P k → P (step k e)) :
    ∀ (evs : List Event) (k : KernelState σ), P k → P (run k evs) := by
  intro evs
  induction evs with
  | nil => intro k hk; exact hk
  | cons e evs ih => intro k hk; exact ih (step k e) (hstep k e hk)

/-- The number of live action goroutines is `1` while `executing` is set and
`0` otherwise; every call keeps this. -/
theorem perform_running {σ : Type} (k : KernelState σ) (c : Call)
    (h : k.running = if k.ap.executing then 1 else 0) :
    (perform k c).running = if (perform k c).ap.executing then 1 else 0 := by
  cases c with
  | execute ctx =>
    cases hx : k.ap.executing with
    | true => simp [perform, Execute, hx, h]
    | false =>
      cases hp : (k.ap.potential k.env ctx).1 with
      | true => simp [perform, Execute, hx, hp, h]
      | false => simp [perform, Execute, hx, hp, h]
  | finish now =>
    cases hx : k.ap.executing with
    | true => simp [perform, KernelState.complete, hx, h]
    | false => simp [perform, KernelState.complete, hx, h]

theorem performAll_running {σ : Type} (calls : List Call) (k : KernelState σ)
    (h : k.running = if k.ap.executing then 1 else 0) :
    (performAll k calls).running = if (performAll k calls).ap.executing then 1 else 0 := by
  induction calls generalizing k with
  | nil => exact h
  | cons c calls ih => exact ih (perform k c) (perform_running k c h)

/-- C1: after any interleaving of `Execute` calls (with any contexts) and
action completions, a kernel created by `newActionPotential` has at most one
running action instance, and it has one exactly when `executing` is true. In
such a state `Execute` either starts nothing, or finds `executing` false, sets
it and starts exactly one instance; `Execute` never clears a set flag; the
completion of the running action clears it and ends that instance. -/
theorem C1_at_most_one_running {σ : Type} (id : Nat) (potential : PotentialFunc σ)
    (env : σ) (calls : List Call) (ctx : Context) (now : Int) :
    (performAll (newActionPotential id potential env) calls).running ≤ 1 ∧
    ((performAll (newActionPotential id potential env) calls).running = 1 ↔
      (performAll (newActionPotential id potential env) calls).ap.executing = true) ∧
    ((Execute (performAll (newActionPotential id potential env) calls) ctx).running =
        (performAll (newActionPotential id potential env) calls).running ∨
      ((performAll (newActionPotential id potential env) calls).ap.executing = false ∧
        (Execute (performAll (newActionPotential id potential env) calls) ctx).ap.executing
          = true ∧
        (Execute (performAll (newActionPotential id potential env) calls) ctx).running = 1)) ∧
    ((performAll (newActionPotential id potential env) calls).ap.executing = false ∨
      (Execute (performAll (newActionPotential id potential env) calls) ctx).ap.executing
        = true) ∧
    (((performAll (newActionPotential id potential env) calls).complete now).ap.executing
        = false ∧
      ((performAll (newActionPotential id potential env) calls).complete now).running = 0) := by
  have h := performAll_running calls (newActionPotential id potential env) rfl
  generalize performAll (newActionPotential id potential env) calls = k at h
  cases hx : k.ap.executing with
  | true =>
    rw [hx] at h
    simp [Execute, KernelState.complete, hx, h]
  | false =>
    rw [hx] at h
    cases hp : (k.ap.potential k.env ctx).1 with
    | true => simp [Execute, KernelState.complete, hx, hp, h] at h ⊢
    | false => simp [Execute, KernelState.complete, hx, hp, h] at h ⊢

/-- C2: while `executing` is true, `Execute` changes nothing but the count of
barrier signals, which grows by one: the potential is not evaluated (its
environment and the count of its evaluations stay), no action instance starts,
and `lastBeatMoment`, `lastCompletion` and `executing` keep their values. -/
theorem C2_busy_execute_only_signals {σ : Type} (k : KernelState σ) (ctx : Context)
    (h : k.ap.executing = true) :
    Execute k ctx = { k with doneSignals := k.doneSignals + 1 } := by
  simp [Execute, h]

theorem C2_busy_execute_only_signals_witness :
    (run (newActionPotential 7 (fun (e : Unit) _ => (true, e)) ()) [Event.beat 5 0]).ap.executing
      = true ∧
    Execute (run (newActionPotential 7 (fun (e : Unit) _ => (true, e)) ()) [Event.beat 5 0])
        (loopContext 9 1) =
      { run (newActionPotential 7 (fun (e : Unit) _ => (true, e)) ()) [Event.beat 5 0] with
        doneSignals :=
          (run (newActionPotential 7 (fun (e : Unit) _ => (true, e)) ())
            [Event.beat 5 0]).doneSignals + 1 } :=
  ⟨rfl, C2_busy_execute_only_signals _ _ rfl⟩

end impulse

/-! ## The beat counter of `Clock.Start` -/

namespace impulse

theorem Start_append {σ : Type} (c : Clock σ) (t0 : Int) (evs evs2 : List ClockEvent) :
    Start c t0 (evs ++ evs2) = evs2.foldl clockStep (Start c t0 evs) := by
  simp [Start, List.foldl_append]

/-- A property of the loop state that every admitted event keeps holds after
every sequence of admitted events. -/
theorem clock_induction {σ : Type} (P : LoopState σ → Prop) (Q : ClockEvent → Prop)
    (hstep : ∀ l e, Q e → P l → P (clockStep l e)) :
    ∀ (evs : List ClockEvent), (∀ e ∈ evs, Q e) →
      ∀ l : LoopState σ, P l → P (evs.foldl clockStep l) := by
  intro evs
  induction evs with
  | nil => intro _ l hl; exact hl
  | cons e evs ih =>
    intro hq l hl
    exact ih (fun x hx => hq x (List.mem_cons_of_mem e hx)) (clockStep l e)
      (hstep l e (hq e (List.mem_cons_self e evs)) hl)

/-- Lines 92 to 95 on a counter that is `n mod P`: the result is `(n + 1) mod P`. -/
theorem nextBeat_emod (P : Int) (hP : 0 < P) (n : Int) :
    nextBeat P (n % P) = (n + 1) % P := by
  have h1 := Int.emod_nonneg n (ne_of_gt hP)
  have h2 := Int.emod_lt_of_pos n hP
  rw [← Int.emod_add_emod]
  unfold nextBeat
  by_cases h : n % P + 1 ≥ P
  · have h3 : n % P + 1 = P := by omega
    simp [h3]
  · simp only [h, if_false]
    exact (Int.emod_eq_of_lt (by omega) (by omega)).symm

/-- With an unchanged positive period `P`, the loop keeps its counter equal
to the number of contexts built so far modulo `P`, and the beats of those
contexts are `0 mod P, 1 mod P, ...`. -/
theorem clockStep_beat {σ : Type} (P : Int) (hP : 0 < P) (l : LoopState σ) (e : ClockEvent)
    (he : e.writesPeriod = false)
    (h : l.clock.Period = P ∧ l.beat = (l.built.length : Int) % P ∧
      l.built.map Context.Beat = (List.range l.built.length).map (fun (i : Nat) => (i : Int) % P)) :
    (clockStep l e).clock.Period = P ∧
    (clockStep l e).beat = ((clockStep l e).built.length : Int) % P ∧
    (clockStep l e).built.map Context.Beat =
      (List.range (clockStep l e).built.length).map (fun (i : Nat) => (i : Int) % P) := by
  obtain ⟨h1, h2, h3⟩ := h
  cases e with
  | tick now =>
    refine ⟨h1, ?_, ?_⟩
    · simp only [clockStep, iteration, List.length_append, List.length_singleton]
      rw [h1, h2, nextBeat_emod P hP]
      push_cast
      rfl
    · simp only [clockStep, iteration, List.length_append, List.length_singleton,
        List.map_append, List.range_succ, h3]
      simp [loopContext, h2]
  | complete i now => exact ⟨h1, h2, h3⟩
  | setPeriod p => simp [ClockEvent.writesPeriod] at he

/-- The loop builds one context per iteration. -/
theorem built_length {σ : Type} (evs : List ClockEvent) (l : LoopState σ) :
    (evs.foldl clockStep l).built.length =
      l.built.length + evs.countP ClockEvent.isTick := by
  induction evs generalizing l with
  | nil => simp
  | cons e evs ih =>
    rw [List.foldl_cons, ih]
    cases e <;> simp [clockStep, iteration, ClockEvent.isTick, List.countP_cons]
    omega

/-- C3: for a clock whose period is a positive integer `P` that nothing writes
while the loop runs, the beat counter starts at `0`; the loop builds one
context per iteration, the context of iteration `i` (counted from `0`) has
`Beat = i mod P`, so every context has `0 ≤ Beat < P`; and an iteration turns
the counter `b` into `b + 1`, except that it turns it into `0` exactly when
`b + 1 = P`. -/
theorem C3_beat_is_iteration_mod_period {σ : Type} (c : Clock σ) (t0 : Int)
    (evs : List ClockEvent) (now : Int) (P : Int)
    (hP : 0 < P) (hc : c.Period = P) (hw : ∀ e ∈ evs, e.writesPeriod = false) :
    (Start c t0 []).beat = 0 ∧
    (Start c t0 evs).built.length = evs.countP ClockEvent.isTick ∧
    (Start c t0 evs).built.map Context.Beat =
      (List.range (evs.countP ClockEvent.isTick)).map (fun (i : Nat) => (i : Int) % P) ∧
    (∀ ctx ∈ (Start c t0 evs).built, 0 ≤ ctx.Beat ∧ ctx.Beat < P) ∧
    (Start c t0 (evs ++ [ClockEvent.tick now])).built =
      (Start c t0 evs).built ++ [loopContext now (Start c t0 evs).beat] ∧
    (Start c t0 (evs ++ [ClockEvent.tick now])).beat =
      (if (Start c t0 evs).beat + 1 = P then 0 else (Start c t0 evs).beat + 1) := by
  have hinv : (Start c t0 evs).clock.Period = P ∧
      (Start c t0 evs).beat = ((Start c t0 evs).built.length : Int) % P ∧
      (Start c t0 evs).built.map Context.Beat =
        (List.range (Start c t0 evs).built.length).map (fun (i : Nat) => (i : Int) % P) :=
    clock_induction
      (fun l : LoopState σ => l.clock.Period = P ∧ l.beat = (l.built.length : Int) % P ∧
        l.built.map Context.Beat =
          (List.range l.built.length).map (fun (i : Nat) => (i : Int) % P))
      (fun e => e.writesPeriod = false)
      (fun l e he hl => clockStep_beat P hP l e he hl) evs hw
      { clock := c, beat := 0, lastNow := t0, pulseCount := 0, pulseCountStart := t0,
        built := [] }
      (by simp [hc])
  have hlen : (Start c t0 evs).built.length = evs.countP ClockEvent.isTick := by
    have := built_length evs
      ({ clock := c, beat := 0, lastNow := t0, pulseCount := 0, pulseCountStart := t0,
         built := [] } : LoopState σ)
    simpa [Start] using this
  obtain ⟨h1, h2, h3⟩ := hinv
  have hb0 : 0 ≤ (Start c t0 evs).beat := by
    rw [h2]; exact Int.emod_nonneg _ (ne_of_gt hP)
  have hb1 : (Start c t0 evs).beat < P := by
    rw [h2]; exact Int.emod_lt_of_pos _ hP
  refine ⟨rfl, hlen, ?_, ?_, ?_, ?_⟩
  · rw [h3, hlen]
  · intro ctx hctx
    have hmem : ctx.Beat ∈ (Start c t0 evs).built.map Context.Beat :=
      List.mem_map_of_mem _ hctx
    rw [h3, List.mem_map] at hmem
    obtain ⟨i, _, hi⟩ := hmem
    rw [← hi]
    exact ⟨Int.emod_nonneg _ (ne_of_gt hP), Int.emod_lt_of_pos _ hP⟩
  · rw [Start_append]
    rfl
  · rw [Start_append]
    simp only [List.foldl_cons, List.foldl_nil, clockStep, iteration, nextBeat, h1]
    by_cases hq : (Start c t0 evs).beat + 1 = P
    · simp [hq]
    · have : ¬ (Start c t0 evs).beat + 1 ≥ P := by omega
      simp [hq, this]

theorem C3_beat_is_iteration_mod_period_witness :
    (0 : Int) < 3 ∧
    (∀ e ∈ [ClockEvent.tick 10, ClockEvent.tick 20, ClockEvent.complete 0 25,
        ClockEvent.tick 30, ClockEvent.tick 40], e.writesPeriod = false) ∧
    (Start ({ ID := 1, Period := 3, kernels := [EveryNthBeat 2 2] } : Clock Int) 5
        [ClockEvent.tick 10, ClockEvent.tick 20, ClockEvent.complete 0 25,
          ClockEvent.tick 30, ClockEvent.tick 40]).built.map Context.Beat =
      (List.range ([ClockEvent.tick 10, ClockEvent.tick 20, ClockEvent.complete 0 25,
          ClockEvent.tick 30, ClockEvent.tick 40].countP ClockEvent.isTick)).map
        (fun (i : Nat) => (i : Int) % 3) :=
  ⟨by decide, by decide,
    (C3_beat_is_iteration_mod_period
      ({ ID := 1, Period := 3, kernels := [EveryNthBeat 2 2] } : Clock Int) 5
      [ClockEvent.tick 10, ClockEvent.tick 20, ClockEvent.complete 0 25,
        ClockEvent.tick 30, ClockEvent.tick 40] 50 3 (by decide) rfl (by decide)).2.2.1⟩

end impulse

/-! ## Kernels: the timing fields of the context -/

namespace impulse

theorem actionContext_Moment {σ : Type} (ap : actionPotential σ) (ctx : Context) :
    (actionContext ap ctx).Moment = ctx.Moment := by
  unfold actionContext
  split <;> rfl

theorem consistent_new {σ : Type} (id : Nat) (potential : PotentialFunc σ) (env : σ) :
    Consistent (newActionPotential id potential env) where
  serial := rfl
  len := rfl
  moments := by intro c hc; simp [newActionPotential] at hc
  lastBeat := rfl
  lastDone := fun _ => rfl
  first := by intro c hc; simp [newActionPotential] at hc
  later := by intro j c hc; simp [newActionPotential] at hc

/-- A firing keeps the record consistent. -/
theorem consistent_fire {σ : Type} (k : KernelState σ) (ctx : Context) (env2 : σ)
    (hk : Consistent k) (hx : k.ap.executing = false) (hm : ctx.Moment ≠ 0)
    (hd : ctx.Delta = 0) (hl : ctx.LastDuration = 0) :
    Consistent
      { ap := { k.ap with executing := true, lastBeatMoment := ctx.Moment }
        env := env2
        running := k.running + 1
        handed := k.handed ++ [actionContext k.ap ctx]
        completions := k.completions
        potentialCalls := k.potentialCalls + 1
        doneSignals := k.doneSignals + 1 } := by
  have hlen : k.completions.length = k.handed.length := by
    have := hk.len
    simpa [hx] using this
  refine ⟨?_, ?_, ?_, ?_, ?_, ?_, ?_⟩
  · have := hk.serial
    simp [hx] at this
    simp [this]
  · simp [hlen]
  · intro c hc
    simp only [List.mem_append, List.mem_singleton] at hc
    rcases hc with hc | hc
    · exact hk.moments c hc
    · rw [hc, actionContext_Moment]; exact hm
  · simp [List.getLast?_concat, actionContext_Moment]
  · intro h; simp at h
  · intro c hc
    cases hh : k.handed with
    | nil =>
      have hz : k.ap.lastBeatMoment = 0 := by
        have := hk.lastBeat
        simpa [hh] using this
      simp only [hh, List.nil_append, List.getElem?_cons_zero, Option.some.injEq] at hc
      rw [← hc]
      simp [actionContext, hz, hd, hl]
    | cons a t =>
      simp only [hh, List.cons_append, List.getElem?_cons_zero, Option.some.injEq] at hc
      exact hk.first c (by simp [hh, hc])
  · intro j c hc
    simp only at hc ⊢
    by_cases hj : j + 1 < k.handed.length
    · rw [List.getElem?_append_left hj] at hc
      rw [List.getElem?_append_left (by omega)]
      exact hk.later j c hc
    · have hj2 : j + 1 = k.handed.length := by
        by_contra hne
        have : (k.handed ++ [actionContext k.ap ctx]).length ≤ j + 1 := by
          simp only [List.length_append, List.length_singleton]; omega
        rw [List.getElem?_eq_none this] at hc
        exact Option.noConfusion hc
      have hjl : j < k.handed.length := by omega
      have hjc : j < k.completions.length := by omega
      rw [hj2, List.getElem?_concat_length, Option.some.injEq] at hc
      rw [List.getElem?_append_left hjl]
      have hp : k.handed[j]? = some k.handed[j] := List.getElem?_eq_getElem hjl
      have ht : k.completions[j]? = some k.completions[j] := List.getElem?_eq_getElem hjc
      have hlast : k.handed.getLast? = some k.handed[j] := by
        rw [List.getLast?_eq_getElem?, ← hj2, Nat.add_sub_cancel]; exact hp
      have hlastc : k.completions.getLast? = some k.completions[j] := by
        rw [List.getLast?_eq_getElem?, hlen, ← hj2, Nat.add_sub_cancel]; exact ht
      have hbm : k.ap.lastBeatMoment = k.handed[j].Moment := by
        have := hk.lastBeat
        simpa [hlast] using this
      have hcm : k.completions[j] = k.ap.lastCompletion := by
        have := hk.lastDone hx
        simpa [hlastc] using this
      have hnz : k.ap.lastBeatMoment ≠ 0 := by
        rw [hbm]; exact hk.moments _ (List.getElem_mem hjl)
      have hac : actionContext k.ap ctx =
          { ctx with Delta := ctx.Moment - k.ap.lastBeatMoment
                     LastDuration := k.ap.lastCompletion - k.ap.lastBeatMoment } := by
        simp [actionContext, hnz]
      refine ⟨k.handed[j], k.completions[j], hp, ht, ?_, ?_⟩
      · rw [← hc, hac, hbm]
      · rw [← hc, hac, hbm, hcm]

/-- The end of the running action keeps the record consistent. -/
theorem consistent_complete {σ : Type} (k : KernelState σ) (now : Int)
    (hk : Consistent k) : Consistent (k.complete now) := by
  unfold KernelState.complete
  by_cases hr : k.running = 0
  · simpa [hr] using hk
  · have hx : k.ap.executing = true := by
      have := hk.serial
      cases hx : k.ap.executing with
      | true => rfl
      | false => rw [hx] at this; exact absurd this hr
    have hlen : k.completions.length + 1 = k.handed.length := by
      have := hk.len
      simpa [hx] using this
    have hrun : k.running = 1 := by
      have := hk.serial
      simpa [hx] using this
    simp only [hr, if_false]
    refine ⟨?_, ?_, hk.moments, hk.lastBeat, ?_, hk.first, ?_⟩
    · simp [hrun]
    · simp [hlen]
    · intro _; simp [List.getLast?_concat]
    · intro j c hc
      obtain ⟨p, t, h1, h2, h3, h4⟩ := hk.later j c hc
      refine ⟨p, t, h1, ?_, h3, h4⟩
      have hjc : j < k.completions.length := by
        by_contra hne
        rw [List.getElem?_eq_none (by omega)] at h2
        exact Option.noConfusion h2
      simp only
      rw [List.getElem?_append_left hjc]
      exact h2

/-- Every event whose beat moment is a real time keeps the record consistent. -/
theorem consistent_step {σ : Type} (k : KernelState σ) (e : Event)
    (he : e.realTime = true) (hk : Consistent k) : Consistent (step k e) := by
  cases e with
  | complete now => exact consistent_complete k now hk
  | beat m b =>
    have hm : m ≠ 0 := by simpa [Event.realTime] using he
    cases hx : k.ap.executing with
    | true =>
      have : step k (Event.beat m b) = { k with doneSignals := k.doneSignals + 1 } := by
        simp [step, dispatch, Execute, hx]
      rw [this]
      exact ⟨hk.serial, hk.len, hk.moments, hk.lastBeat, hk.lastDone, hk.first, hk.later⟩
    | false =>
      cases hp : (k.ap.potential k.env { loopContext m b with Kernel := k.ref }).1 with
      | true =>
        have : step k (Event.beat m b) =
            { ap := { k.ap with executing := true,
                                lastBeatMoment := ({ loopContext m b with Kernel := k.ref }).Moment }
              env := (k.ap.potential k.env { loopContext m b with Kernel := k.ref }).2
              running := k.running + 1
              handed := k.handed ++ [actionContext k.ap { loopContext m b with Kernel := k.ref }]
              completions := k.completions
              potentialCalls := k.potentialCalls + 1
              doneSignals := k.doneSignals + 1 } := by
          simp [step, dispatch, Execute, hx, hp]
        rw [this]
        exact consistent_fire k _ _ hk hx hm rfl rfl
      | false =>
        have : step k (Event.beat m b) =
            { k with env := (k.ap.potential k.env { loopContext m b with Kernel := k.ref }).2
                     potentialCalls := k.potentialCalls + 1
                     doneSignals := k.doneSignals + 1 } := by
          simp [step, dispatch, Execute, hx, hp]
        rw [this]
        exact ⟨hk.serial, hk.len, hk.moments, hk.lastBeat, hk.lastDone, hk.first, hk.later⟩

theorem consistent_run {σ : Type} (evs : List Event) (k : KernelState σ)
    (he : ∀ e ∈ evs, e.realTime = true) (hk : Consistent k) : Consistent (run k evs) := by
  induction evs generalizing k with
  | nil => exact hk
  | cons e evs ih =>
    exact ih (step k e) (fun x hx => he x (List.mem_cons_of_mem e hx))
      (consistent_step k e (he e (List.mem_cons_self e evs)) hk)

end impulse

/-! ## A kernel inside the running clock -/

namespace impulse

/-- The state of the kernel at position `i` after a clock run is the state that
kernel reaches on its own view of the run: the beats of the loop and the
completions of its own action. No other kernel enters. -/
theorem kernels_project {σ : Type} (i : Nat) (cevs : List ClockEvent) (l : LoopState σ) :
    (cevs.foldl clockStep l).clock.kernels[i]? =
      (l.clock.kernels[i]?).map
        (fun k => run k (kernelEvents i l.beat l.clock.Period cevs)) := by
  induction cevs generalizing l with
  | nil => simp [kernelEvents, run]
  | cons e cevs ih =>
    rw [List.foldl_cons, ih]
    cases e with
    | tick now =>
      simp only [clockStep, iteration, kernelEvents, List.getElem?_map, Option.map_map]
      rfl
    | complete j now =>
      simp only [clockStep, kernelEvents, List.getElem?_modify]
      by_cases hji : j = i
      · simp only [hji, if_true]
        cases l.clock.kernels[i]? <;> rfl
      · simp only [hji, if_false]
        cases l.clock.kernels[i]? <;> rfl
    | setPeriod p =>
      simp only [clockStep, kernelEvents]

/-- Every beat a kernel sees in a clock run is an iteration of the loop. -/
theorem kernelEvents_beat (i : Nat) (m b : Int) (cevs : List ClockEvent) :
    ∀ beat period : Int, Event.beat m b ∈ kernelEvents i beat period cevs →
      ClockEvent.tick m ∈ cevs := by
  induction cevs with
  | nil => intro beat period h; simp [kernelEvents] at h
  | cons e cevs ih =>
    intro beat period h
    cases e with
    | tick now =>
      simp only [kernelEvents, List.mem_cons, Event.beat.injEq] at h
      rcases h with h | h
      · simp [h.1]
      · exact List.mem_cons_of_mem _ (ih _ _ h)
    | complete j now =>
      simp only [kernelEvents] at h
      split at h
      · simp only [List.mem_cons] at h
        rcases h with h | h
        · exact Event.noConfusion h
        · exact List.mem_cons_of_mem _ (ih _ _ h)
      · exact List.mem_cons_of_mem _ (ih _ _ h)
    | setPeriod p =>
      simp only [kernelEvents] at h
      exact List.mem_cons_of_mem _ (ih _ _ h)

/-- The real-time condition carries over to a kernel's view of a clock run. -/
theorem kernelEvents_realTime (i : Nat) (cevs : List ClockEvent)
    (hm : ∀ e ∈ cevs, e.realTime = true) :
    ∀ beat period : Int, ∀ e ∈ kernelEvents i beat period cevs, e.realTime = true := by
  induction cevs with
  | nil => intro beat period e h; simp [kernelEvents] at h
  | cons c cevs ih =>
    have hm2 : ∀ e ∈ cevs, e.realTime = true := fun x hx => hm x (List.mem_cons_of_mem c hx)
    intro beat period e h
    cases c with
    | tick now =>
      simp only [kernelEvents, List.mem_cons] at h
      rcases h with h | h
      · have := hm (ClockEvent.tick now) (List.mem_cons_self _ _)
        rw [h]
        simpa [ClockEvent.realTime, Event.realTime] using this
      · exact ih hm2 _ _ e h
    | complete j now =>
      simp only [kernelEvents] at h
      split at h
      · simp only [List.mem_cons] at h
        rcases h with h | h
        · rw [h]; rfl
        · exact ih hm2 _ _ e h
      · exact ih hm2 _ _ e h
    | setPeriod p =>
      simp only [kernelEvents] at h
      exact ih hm2 _ _ e h

/-- A context handed to the action carries the moment and the beat number of
the beat that fired it. -/
theorem handed_from_beat {σ : Type} (evs : List Event) (k : KernelState σ) :
    ∀ x ∈ (run k evs).handed, x ∈ k.handed ∨ Event.beat x.Moment x.Beat ∈ evs := by
  induction evs generalizing k with
  | nil => intro x hx; exact Or.inl hx
  | cons e evs ih =>
    intro x hx
    rcases ih (step k e) x hx with h | h
    · cases e with
      | complete now =>
        left
        simp only [step, KernelState.complete] at h
        split at h <;> exact h
      | beat m b =>
        simp only [step, dispatch, Execute] at h
        split at h
        · exact Or.inl h
        · split at h
          · simp only [List.mem_append, List.mem_singleton] at h
            rcases h with h | h
            · exact Or.inl h
            · right
              have h1 : x.Moment = m := by rw [h, actionContext_Moment]; rfl
              have h2 : x.Beat = b := by
                rw [h]; unfold actionContext; split <;> rfl
              rw [h1, h2]
              exact List.mem_cons_self _ _
          · exact Or.inl h
    · exact Or.inr (List.mem_cons_of_mem _ h)

/-- C4: take a kernel fresh from `newActionPotential` at position `i` of a
clock and any run of the loop in which the moments are real times. The state
of that kernel, and with it every context handed to its action, is fixed by
the iterations of the loop and the completions of its own action alone,
whatever the other kernels are and do. Each handed context carries the moment
of an iteration of the loop; the first has `Delta = 0`; every later one has
`Delta` equal to its own moment minus the moment of the context handed out
just before it. -/
theorem C4_delta_between_own_firings {σ : Type} (c : Clock σ) (t0 : Int)
    (cevs : List ClockEvent) (i : Nat) (id : Nat) (potential : PotentialFunc σ) (env : σ)
    (hk : c.kernels[i]? = some (newActionPotential id potential env))
    (hm : ∀ e ∈ cevs, e.realTime = true) :
    ∃ k, (Start c t0 cevs).clock.kernels[i]? = some k ∧
      k = run (newActionPotential id potential env) (kernelEvents i 0 c.Period cevs) ∧
      (∀ x ∈ k.handed, ClockEvent.tick x.Moment ∈ cevs) ∧
      (∀ x, k.handed[0]? = some x → x.Delta = 0) ∧
      (∀ j x, k.handed[j + 1]? = some x →
        ∃ p, k.handed[j]? = some p ∧ x.Delta = x.Moment - p.Moment) := by
  refine ⟨run (newActionPotential id potential env) (kernelEvents i 0 c.Period cevs),
    ?_, rfl, ?_, ?_, ?_⟩
  · have := kernels_project i cevs
      ({ clock := c, beat := 0, lastNow := t0, pulseCount := 0, pulseCountStart := t0,
         built := [] } : LoopState σ)
    simp only [hk, Option.map_some'] at this
    exact this
  · intro x hx
    rcases handed_from_beat _ _ x hx with h | h
    · simp [newActionPotential] at h
    · exact kernelEvents_beat i _ _ cevs 0 c.Period h
  · intro x hx
    exact ((consistent_run _ _ (kernelEvents_realTime i cevs hm 0 c.Period)
      (consistent_new id potential env)).first x hx).1
  · intro j x hx
    obtain ⟨p, t, h1, _, h3, _⟩ :=
      (consistent_run _ _ (kernelEvents_realTime i cevs hm 0 c.Period)
        (consistent_new id potential env)).later j x hx
    exact ⟨p, h1, h3⟩

/-- C8: for a kernel fresh from `newActionPotential` and any run of beats (at
real times) and completions, firings and completions alternate; the first
context handed to the action has `LastDuration = 0`; every later one has
`LastDuration` equal to the completion time of the firing just before it minus
the moment of that firing, which is not negative when that completion is not
earlier than that moment. -/
theorem C8_last_duration_of_previous_firing {σ : Type} (id : Nat)
    (potential : PotentialFunc σ) (env : σ) (evs : List Event)
    (hm : ∀ e ∈ evs, e.realTime = true) :
    ((run (newActionPotential id potential env) evs).completions.length +
        (if (run (newActionPotential id potential env) evs).ap.executing then 1 else 0) =
      (run (newActionPotential id potential env) evs).handed.length) ∧
    (∀ x, (run (newActionPotential id potential env) evs).handed[0]? = some x →
      x.LastDuration = 0) ∧
    (∀ j x, (run (newActionPotential id potential env) evs).handed[j + 1]? = some x →
      ∃ p t, (run (newActionPotential id potential env) evs).handed[j]? = some p ∧
        (run (newActionPotential id potential env) evs).completions[j]? = some t ∧
        x.LastDuration = t - p.Moment ∧ (p.Moment ≤ t → 0 ≤ x.LastDuration)) := by
  have hc := consistent_run evs _ hm (consistent_new id potential env)
  refine ⟨hc.len, fun x hx => (hc.first x hx).2, ?_⟩
  intro j x hx
  obtain ⟨p, t, h1, h2, _, h4⟩ := hc.later j x hx
  exact ⟨p, t, h1, h2, h4, fun hle => by rw [h4]; omega⟩

end impulse

/-! ## Witnesses for the timing fields -/

namespace impulse

theorem C4_delta_between_own_firings_witness :
    (({ ID := 1, Period := 4, kernels := [EveryNthBeat 2 1, EveryNthBeat 3 2] } :
        Clock Int).kernels[0]? = some (newActionPotential 2 (everyNthPotential 1) 0)) ∧
    (∀ e ∈ [ClockEvent.tick 10, ClockEvent.complete 0 15, ClockEvent.tick 30,
        ClockEvent.complete 1 31, ClockEvent.tick 40], e.realTime = true) ∧
    ∃ k, (Start ({ ID := 1, Period := 4, kernels := [EveryNthBeat 2 1, EveryNthBeat 3 2] } :
          Clock Int) 5
        [ClockEvent.tick 10, ClockEvent.complete 0 15, ClockEvent.tick 30,
          ClockEvent.complete 1 31, ClockEvent.tick 40]).clock.kernels[0]? = some k ∧
      k.handed.map Context.Moment = [10, 30] ∧ k.handed.map Context.Delta = [0, 20] := by
  refine ⟨rfl, by decide, ?_⟩
  obtain ⟨k, h1, h2, _⟩ := C4_delta_between_own_firings
    ({ ID := 1, Period := 4, kernels := [EveryNthBeat 2 1, EveryNthBeat 3 2] } : Clock Int) 5
    [ClockEvent.tick 10, ClockEvent.complete 0 15, ClockEvent.tick 30,
      ClockEvent.complete 1 31, ClockEvent.tick 40] 0 2 (everyNthPotential 1) 0 rfl (by decide)
  refine ⟨k, h1, ?_, ?_⟩
  · rw [h2]; decide
  · rw [h2]; decide

theorem C8_last_duration_of_previous_firing_witness :
    (∀ e ∈ [Event.beat 10 0, Event.beat 12 1, Event.complete 15, Event.beat 30 2],
      e.realTime = true) ∧
    (run (newActionPotential 2 (everyNthPotential 1) 0)
      [Event.beat 10 0, Event.beat 12 1, Event.complete 15, Event.beat 30 2]).handed.map
        Context.LastDuration = [0, 5] ∧
    ∃ p t, (run (newActionPotential 2 (everyNthPotential 1) 0)
        [Event.beat 10 0, Event.beat 12 1, Event.complete 15, Event.beat 30 2]).handed[0]?
          = some p ∧
      (run (newActionPotential 2 (everyNthPotential 1) 0)
        [Event.beat 10 0, Event.beat 12 1, Event.complete 15, Event.beat 30 2]).completions[0]?
          = some t ∧
      (5 : Int) = t - p.Moment ∧ (p.Moment ≤ t → (0 : Int) ≤ 5) :=
  ⟨by decide, by decide,
    (C8_last_duration_of_previous_firing 2 (everyNthPotential 1) 0
      [Event.beat 10 0, Event.beat 12 1, Event.complete 15, Event.beat 30 2]
      (by decide)).2.2 0
      { Moment := 30, Delta := 20, LastDuration := 5, Beat := 2,
        Kernel := { ID := 2, executing := false } } (by decide)⟩

end impulse

/-! ## The every-Nth-beat kernel -/

namespace impulse

/-- The potential is evaluated exactly on the beats that find the kernel idle. -/
theorem potentialCalls_run {σ : Type} (evs : List Event) (k : KernelState σ) :
    (run k evs).potentialCalls = k.potentialCalls + idleBeats k evs := by
  induction evs generalizing k with
  | nil => rfl
  | cons e evs ih =>
    rw [run_cons, ih]
    cases e with
    | beat m b =>
      simp only [idleBeats]
      cases hx : k.ap.executing with
      | true => simp [step, dispatch, Execute, hx]
      | false =>
        cases hp : (k.ap.potential k.env { loopContext m b with Kernel := k.ref }).1 with
        | true => simp [step, dispatch, Execute, hx, hp]; omega
        | false => simp [step, dispatch, Execute, hx, hp]; omega
    | complete now =>
      simp only [idleBeats]
      have : (step k (Event.complete now)).potentialCalls = k.potentialCalls := by
        simp only [step, KernelState.complete]
        split <;> rfl
      rw [this]

/-- The counter of the every-Nth-beat closure, the firings and the idle beats
of the kernel stay in step: `idle beats = n * firings + count`, `0 ≤ count < n`. -/
theorem everyNth_step (n : Int) (k : KernelState Int) (e : Event)
    (h : k.ap.potential = everyNthPotential n ∧
      (k.potentialCalls : Int) = n * (k.handed.length : Int) + k.env ∧
      0 ≤ k.env ∧ k.env < n) :
    (step k e).ap.potential = everyNthPotential n ∧
    ((step k e).potentialCalls : Int) = n * ((step k e).handed.length : Int) + (step k e).env ∧
    0 ≤ (step k e).env ∧ (step k e).env < n := by
  obtain ⟨h1, h2, h3, h4⟩ := h
  cases e with
  | complete now =>
    simp only [step, KernelState.complete]
    split
    · exact ⟨h1, h2, h3, h4⟩
    · exact ⟨h1, h2, h3, h4⟩
  | beat m b =>
    cases hx : k.ap.executing with
    | true =>
      simp only [step, dispatch, Execute, hx, if_true]
      exact ⟨h1, h2, h3, h4⟩
    | false =>
      by_cases hge : k.env + 1 ≥ n
      · have hn : k.env + 1 = n := by omega
        simp [step, dispatch, Execute, hx, h1, everyNthPotential, KernelState.ref,
          KernelState.IsExecuting, hge]
        refine ⟨?_, by omega⟩
        rw [mul_add, mul_one]
        omega
      · simp [step, dispatch, Execute, hx, h1, everyNthPotential, KernelState.ref,
          KernelState.IsExecuting, hge]
        refine ⟨?_, by omega, by omega⟩
        omega

end impulse

namespace impulse

theorem idleBeats_append {σ : Type} (evs evs2 : List Event) (k : KernelState σ) :
    idleBeats k (evs ++ evs2) = idleBeats k evs + idleBeats (run k evs) evs2 := by
  induction evs generalizing k with
  | nil => simp [idleBeats, run]
  | cons e evs ih =>
    cases e with
    | beat m b => simp only [List.cons_append, idleBeats, List.append_eq, ih, run_cons]; omega
    | complete now => simp only [List.cons_append, idleBeats, List.append_eq, ih, run_cons]

theorem everyNth_run (n : Int) (hn : 1 ≤ n) (id : Nat) (evs : List Event) :
    (run (EveryNthBeat id n) evs).ap.potential = everyNthPotential n ∧
    (idleBeats (EveryNthBeat id n) evs : Int) =
      n * ((run (EveryNthBeat id n) evs).handed.length : Int) + (run (EveryNthBeat id n) evs).env ∧
    0 ≤ (run (EveryNthBeat id n) evs).env ∧ (run (EveryNthBeat id n) evs).env < n := by
  have h := run_induction
    (fun k : KernelState Int => k.ap.potential = everyNthPotential n ∧
      (k.potentialCalls : Int) = n * (k.handed.length : Int) + k.env ∧
      0 ≤ k.env ∧ k.env < n)
    (fun k e hk => everyNth_step n k e hk) evs (EveryNthBeat id n)
    (by simp [EveryNthBeat, newActionPotential]; omega)
  have hpc := potentialCalls_run evs (EveryNthBeat id n)
  have h0 : (EveryNthBeat id n).potentialCalls = 0 := rfl
  rw [h0, Nat.zero_add] at hpc
  simp only [hpc] at h
  exact h

/-- A beat that finds the every-Nth-beat kernel idle adds one to the counter;
the kernel fires and the counter returns to `0` when it reaches `n`. -/
theorem everyNth_idle_beat (n : Int) (k : KernelState Int) (m b : Int)
    (hp : k.ap.potential = everyNthPotential n) (hx : k.ap.executing = false) :
    if k.env + 1 ≥ n then
      (step k (Event.beat m b)).handed.length = k.handed.length + 1 ∧
        (step k (Event.beat m b)).env = 0
    else
      (step k (Event.beat m b)).handed = k.handed ∧
        (step k (Event.beat m b)).env = k.env + 1 := by
  by_cases hge : k.env + 1 ≥ n
  · simp [step, dispatch, Execute, hx, hp, everyNthPotential, KernelState.ref,
      KernelState.IsExecuting, hge]
  · simp [step, dispatch, Execute, hx, hp, everyNthPotential, KernelState.ref,
      KernelState.IsExecuting, hge]

/-- C5: for `n ≥ 1`, the kernel of `EveryNthBeat(n, action)` after any run of
beats and completions has fired once per `n` idle beats: the number of firings
is the number of idle beats divided by `n` (rounded down) and the counter is
the remainder. A further beat that finds the kernel executing is not an idle
beat, leaves the counter alone and fires nothing; a further beat that finds it
idle is idle beat number `idle + 1`, and it fires (and resets the counter to
`0`) exactly when `n` divides that number, otherwise it only adds one to the
counter. -/
theorem C5_every_nth_idle_beat (n : Int) (hn : 1 ≤ n) (id : Nat) (evs : List Event)
    (m b : Int) :
    (run (EveryNthBeat id n) evs).env = (idleBeats (EveryNthBeat id n) evs : Int) % n ∧
    ((run (EveryNthBeat id n) evs).handed.length : Int) =
      (idleBeats (EveryNthBeat id n) evs : Int) / n ∧
    (if (run (EveryNthBeat id n) evs).ap.executing = true then
      idleBeats (EveryNthBeat id n) (evs ++ [Event.beat m b]) =
          idleBeats (EveryNthBeat id n) evs ∧
        (run (EveryNthBeat id n) (evs ++ [Event.beat m b])).env =
          (run (EveryNthBeat id n) evs).env ∧
        (run (EveryNthBeat id n) (evs ++ [Event.beat m b])).handed =
          (run (EveryNthBeat id n) evs).handed
    else
      idleBeats (EveryNthBeat id n) (evs ++ [Event.beat m b]) =
          idleBeats (EveryNthBeat id n) evs + 1 ∧
        (if n ∣ (idleBeats (EveryNthBeat id n) evs : Int) + 1 then
          (run (EveryNthBeat id n) (evs ++ [Event.beat m b])).handed.length =
              (run (EveryNthBeat id n) evs).handed.length + 1 ∧
            (run (EveryNthBeat id n) (evs ++ [Event.beat m b])).env = 0
        else
          (run (EveryNthBeat id n) (evs ++ [Event.beat m b])).handed =
              (run (EveryNthBeat id n) evs).handed ∧
            (run (EveryNthBeat id n) (evs ++ [Event.beat m b])).env =
              (run (EveryNthBeat id n) evs).env + 1)) := by
  obtain ⟨h1, h2, h3, h4⟩ := everyNth_run n hn id evs
  have hdm := (Int.ediv_emod_unique (a := (idleBeats (EveryNthBeat id n) evs : Int))
    (b := n) (r := (run (EveryNthBeat id n) evs).env)
    (q := ((run (EveryNthBeat id n) evs).handed.length : Int)) (by omega)).2
    ⟨by rw [h2]; ring, h3, h4⟩
  refine ⟨hdm.2.symm, hdm.1.symm, ?_⟩
  rw [idleBeats_append, run_append]
  generalize run (EveryNthBeat id n) evs = k at h1 h2 h3 h4 hdm
  cases hx : k.ap.executing with
  | true =>
    simp only [if_true, idleBeats, hx, run, List.foldl_cons, List.foldl_nil]
    simp [step, dispatch, Execute, hx]
  | false =>
    have hstep := everyNth_idle_beat n k m b h1 hx
    have hdvd : n ∣ (idleBeats (EveryNthBeat id n) evs : Int) + 1 ↔ k.env + 1 ≥ n := by
      rw [h2]
      constructor
      · intro hd
        have hd2 : n ∣ k.env + 1 := by
          have : n * (k.handed.length : Int) + k.env + 1 =
              n * (k.handed.length : Int) + (k.env + 1) := by ring
          rw [this] at hd
          exact (Int.dvd_add_right (Dvd.intro _ rfl)).1 hd
        exact Int.le_of_dvd (by omega) hd2
      · intro hge
        have hn2 : k.env + 1 = n := by omega
        refine ⟨(k.handed.length : Int) + 1, ?_⟩
        rw [mul_add, mul_one]
        omega
    simp only [Bool.false_eq_true, if_false, idleBeats, hx, run, List.foldl_cons,
      List.foldl_nil]
    refine ⟨trivial, ?_⟩
    by_cases hge : k.env + 1 ≥ n
    · rw [if_pos hge] at hstep
      rw [if_pos (hdvd.2 hge)]
      exact hstep
    · rw [if_neg hge] at hstep
      rw [if_neg (fun hd => hge (hdvd.1 hd))]
      exact hstep

theorem C5_every_nth_idle_beat_witness :
    (1 : Int) ≤ 3 ∧
    idleBeats (EveryNthBeat 4 3)
      [Event.beat 1 0, Event.beat 2 1, Event.beat 3 2, Event.beat 4 3, Event.beat 5 4,
        Event.complete 6, Event.beat 7 5, Event.beat 8 6] = 5 ∧
    (run (EveryNthBeat 4 3)
      [Event.beat 1 0, Event.beat 2 1, Event.beat 3 2, Event.beat 4 3, Event.beat 5 4,
        Event.complete 6, Event.beat 7 5, Event.beat 8 6]).handed.map Context.Moment = [3] ∧
    (run (EveryNthBeat 4 3)
      [Event.beat 1 0, Event.beat 2 1, Event.beat 3 2, Event.beat 4 3, Event.beat 5 4,
        Event.complete 6, Event.beat 7 5, Event.beat 8 6]).env =
      (idleBeats (EveryNthBeat 4 3)
        [Event.beat 1 0, Event.beat 2 1, Event.beat 3 2, Event.beat 4 3, Event.beat 5 4,
          Event.complete 6, Event.beat 7 5, Event.beat 8 6] : Int) % 3 :=
  ⟨by decide, by decide, by decide,
    (C5_every_nth_idle_beat 3 (by decide) 4
      [Event.beat 1 0, Event.beat 2 1, Event.beat 3 2, Event.beat 4 3, Event.beat 5 4,
        Event.complete 6, Event.beat 7 5, Event.beat 8 6] 9 7).1⟩

end impulse

/-! ## The period regulator -/

namespace regulation

theorem sumAndCount_from (timeline : List TemporalFragment) (a n : Int) :
    timeline.foldl (fun acc frame => (acc.1 + frame.delta, acc.2 + 1)) (a, n) =
      (a + (timeline.map TemporalFragment.delta).sum, n + (timeline.length : Int)) := by
  induction timeline generalizing a n with
  | nil => simp
  | cons f fs ih =>
    simp only [List.foldl_cons, ih, List.map_cons, List.sum_cons, List.length_cons]
    push_cast
    congr 1 <;> ring

theorem sumAndCount_eq (timeline : List TemporalFragment) :
    sumAndCount timeline =
      ((timeline.map TemporalFragment.delta).sum, (timeline.length : Int)) := by
  unfold sumAndCount
  rw [sumAndCount_from]
  simp

/-- C9: the average `Regulate` uses is the sum of the stored signed deviations
divided, with truncation toward zero, by the number of samples; with no sample
the divisor is `1` and the average is `0`; the divisor is never `0`. For the
deviations `-7` and `0` the average is `-3`. -/
theorem C9_average_is_truncated_mean (timeline : List TemporalFragment) :
    divisor timeline = (if timeline.length = 0 then 1 else (timeline.length : Int)) ∧
    divisor timeline ≠ 0 ∧
    averageDelta timeline =
      Int.tdiv (timeline.map TemporalFragment.delta).sum (divisor timeline) ∧
    averageDelta timeline = specAverage timeline ∧
    divisor [] = 1 ∧ averageDelta [] = 0 ∧
    averageDelta [{ lastNow := 0, lastDuration := 0, delta := -7, absDelta := 0 },
      { lastNow := 0, lastDuration := 0, delta := 0, absDelta := 0 }] = -3 := by
  have hd : divisor timeline = (if timeline.length = 0 then 1 else (timeline.length : Int)) := by
    unfold divisor
    rw [sumAndCount_eq]
    by_cases h : timeline.length = 0
    · simp [h]
    · have : (timeline.length : Int) ≠ 0 := by exact_mod_cast h
      simp [h, this]
  have ha : averageDelta timeline =
      Int.tdiv (timeline.map TemporalFragment.delta).sum (divisor timeline) := by
    unfold averageDelta
    rw [sumAndCount_eq]
  refine ⟨hd, ?_, ha, ?_, by decide, by decide, by decide⟩
  · rw [hd]
    by_cases h : timeline.length = 0
    · simp [h]
    · have : (timeline.length : Int) ≠ 0 := by exact_mod_cast h
      simp [h, this]
  · rw [ha, hd]
    unfold specAverage
    by_cases h : timeline.length = 0
    · have hnil : timeline = [] := List.length_eq_zero.mp h
      simp [hnil]
    · simp [h]

/-- The thresholds of the chain of comparisons, in nanoseconds. -/
theorem table_thresholds :
    Second / 2 = 500000000 ∧ Second / 5 = 200000000 ∧ Second / 10 = 100000000 ∧
    Second / 25 = 40000000 ∧ Second / 50 = 20000000 ∧ Second / 100 = 10000000 ∧
    Second / 250 = 4000000 ∧ Second / 500 = 2000000 ∧ Second / 1000 = 1000000 := by
  decide

/-- The chain of comparisons selects the table value above one millisecond and
keeps the old value of `deviation` at or below it. -/
theorem selectDeviation_eq (deviation absDelta : Int) :
    selectDeviation deviation absDelta =
      if absDelta ≤ Second / 1000 then deviation else specStep absDelta := by
  obtain ⟨h2, h5, h10, h25, h50, h100, h250, h500, h1000⟩ := table_thresholds
  simp only [selectDeviation, specStep, h2, h5, h10, h25, h50, h100, h250, h500, h1000]
  by_cases c1 : absDelta > 500000000
  · simp only [show absDelta > 500000000 by omega, show ¬ absDelta ≤ 500000000 by omega,
      show absDelta > 200000000 by omega, show ¬ absDelta ≤ 200000000 by omega,
      show absDelta > 100000000 by omega, show ¬ absDelta ≤ 100000000 by omega,
      show absDelta > 40000000 by omega, show ¬ absDelta ≤ 40000000 by omega,
      show absDelta > 20000000 by omega, show ¬ absDelta ≤ 20000000 by omega,
      show absDelta > 10000000 by omega, show ¬ absDelta ≤ 10000000 by omega,
      show absDelta > 4000000 by omega, show ¬ absDelta ≤ 4000000 by omega,
      show absDelta > 2000000 by omega, show ¬ absDelta ≤ 2000000 by omega,
      show absDelta > 1000000 by omega, show ¬ absDelta ≤ 1000000 by omega, if_true, if_false]
  ·
    by_cases c2 : absDelta > 200000000
    · simp only [show ¬ absDelta > 500000000 by omega, show absDelta ≤ 500000000 by omega,
        show absDelta > 200000000 by omega, show ¬ absDelta ≤ 200000000 by omega,
        show absDelta > 100000000 by omega, show ¬ absDelta ≤ 100000000 by omega,
        show absDelta > 40000000 by omega, show ¬ absDelta ≤ 40000000 by omega,
        show absDelta > 20000000 by omega, show ¬ absDelta ≤ 20000000 by omega,
        show absDelta > 10000000 by omega, show ¬ absDelta ≤ 10000000 by omega,
        show absDelta > 4000000 by omega, show ¬ absDelta ≤ 4000000 by omega,
        show absDelta > 2000000 by omega, show ¬ absDelta ≤ 2000000 by omega,
        show absDelta > 1000000 by omega, show ¬ absDelta ≤ 1000000 by omega, if_true,
        if_false]
    ·
      by_cases c3 : absDelta > 100000000
      · simp only [show ¬ absDelta > 500000000 by omega, show absDelta ≤ 500000000 by omega,
          show ¬ absDelta > 200000000 by omega, show absDelta ≤ 200000000 by omega,
          show absDelta > 100000000 by omega, show ¬ absDelta ≤ 100000000 by omega,
          show absDelta > 40000000 by omega, show ¬ absDelta ≤ 40000000 by omega,
          show absDelta > 20000000 by omega, show ¬ absDelta ≤ 20000000 by omega,
          show absDelta > 10000000 by omega, show ¬ absDelta ≤ 10000000 by omega,
          show absDelta > 4000000 by omega, show ¬ absDelta ≤ 4000000 by omega,
          show absDelta > 2000000 by omega, show ¬ absDelta ≤ 2000000 by omega,
          show absDelta > 1000000 by omega, show ¬ absDelta ≤ 1000000 by omega, if_true,
          if_false]
      ·
        by_cases c4 : absDelta > 40000000
        · simp only [show ¬ absDelta > 500000000 by omega, show absDelta ≤ 500000000 by omega,
            show ¬ absDelta > 200000000 by omega, show absDelta ≤ 200000000 by omega,
            show ¬ absDelta > 100000000 by omega, show absDelta ≤ 100000000 by omega,
            show absDelta > 40000000 by omega, show ¬ absDelta ≤ 40000000 by omega,
            show absDelta > 20000000 by omega, show ¬ absDelta ≤ 20000000 by omega,
            show absDelta > 10000000 by omega, show ¬ absDelta ≤ 10000000 by omega,
            show absDelta > 4000000 by omega, show ¬ absDelta ≤ 4000000 by omega,
            show absDelta > 2000000 by omega, show ¬ absDelta ≤ 2000000 by omega,
            show absDelta > 1000000 by omega, show ¬ absDelta ≤ 1000000 by omega, if_true,
            if_false]
        ·
          by_cases c5 : absDelta > 20000000
          · simp only [show ¬ absDelta > 500000000 by omega,
              show absDelta ≤ 500000000 by omega, show ¬ absDelta > 200000000 by omega,
              show absDelta ≤ 200000000 by omega, show ¬ absDelta > 100000000 by omega,
              show absDelta ≤ 100000000 by omega, show ¬ absDelta > 40000000 by omega,
              show absDelta ≤ 40000000 by omega, show absDelta > 20000000 by omega,
              show ¬ absDelta ≤ 20000000 by omega, show absDelta > 10000000 by omega,
              show ¬ absDelta ≤ 10000000 by omega, show absDelta > 4000000 by omega,
              show ¬ absDelta ≤ 4000000 by omega, show absDelta > 2000000 by omega,
              show ¬ absDelta ≤ 2000000 by omega, show absDelta > 1000000 by omega,
              show ¬ absDelta ≤ 1000000 by omega, if_true, if_false]
          ·
            by_cases c6 : absDelta > 10000000
            · simp only [show ¬ absDelta > 500000000 by omega,
                show absDelta ≤ 500000000 by omega, show ¬ absDelta > 200000000 by omega,
                show absDelta ≤ 200000000 by omega, show ¬ absDelta > 100000000 by omega,
                show absDelta ≤ 100000000 by omega, show ¬ absDelta > 40000000 by omega,
                show absDelta ≤ 40000000 by omega, show ¬ absDelta > 20000000 by omega,
                show absDelta ≤ 20000000 by omega, show absDelta > 10000000 by omega,
                show ¬ absDelta ≤ 10000000 by omega, show absDelta > 4000000 by omega,
                show ¬ absDelta ≤ 4000000 by omega, show absDelta > 2000000 by omega,
                show ¬ absDelta ≤ 2000000 by omega, show absDelta > 1000000 by omega,
                show ¬ absDelta ≤ 1000000 by omega, if_true, if_false]
            ·
              by_cases c7 : absDelta > 4000000
              · simp only [show ¬ absDelta > 500000000 by omega,
                  show absDelta ≤ 500000000 by omega, show ¬ absDelta > 200000000 by omega,
                  show absDelta ≤ 200000000 by omega, show ¬ absDelta > 100000000 by omega,
                  show absDelta ≤ 100000000 by omega, show ¬ absDelta > 40000000 by omega,
                  show absDelta ≤ 40000000 by omega, show ¬ absDelta > 20000000 by omega,
                  show absDelta ≤ 20000000 by omega, show ¬ absDelta > 10000000 by omega,
                  show absDelta ≤ 10000000 by omega, show absDelta > 4000000 by omega,
                  show ¬ absDelta ≤ 4000000 by omega, show absDelta > 2000000 by omega,
                  show ¬ absDelta ≤ 2000000 by omega, show absDelta > 1000000 by omega,
                  show ¬ absDelta ≤ 1000000 by omega, if_true, if_false]
              ·
                by_cases c8 : absDelta > 2000000
                · simp only [show ¬ absDelta > 500000000 by omega,
                    show absDelta ≤ 500000000 by omega, show ¬ absDelta > 200000000 by omega,
                    show absDelta ≤ 200000000 by omega, show ¬ absDelta > 100000000 by omega,
                    show absDelta ≤ 100000000 by omega, show ¬ absDelta > 40000000 by omega,
                    show absDelta ≤ 40000000 by omega, show ¬ absDelta > 20000000 by omega,
                    show absDelta ≤ 20000000 by omega, show ¬ absDelta > 10000000 by omega,
                    show absDelta ≤ 10000000 by omega, show ¬ absDelta > 4000000 by omega,
                    show absDelta ≤ 4000000 by omega, show absDelta > 2000000 by omega,
                    show ¬ absDelta ≤ 2000000 by omega, show absDelta > 1000000 by omega,
                    show ¬ absDelta ≤ 1000000 by omega, if_true, if_false]
                ·
                  by_cases c9 : absDelta > 1000000
                  · simp only [show ¬ absDelta > 500000000 by omega,
                      show absDelta ≤ 500000000 by omega,
                      show ¬ absDelta > 200000000 by omega,
                      show absDelta ≤ 200000000 by omega,
                      show ¬ absDelta > 100000000 by omega,
                      show absDelta ≤ 100000000 by omega, show ¬ absDelta > 40000000 by omega,
                      show absDelta ≤ 40000000 by omega, show ¬ absDelta > 20000000 by omega,
                      show absDelta ≤ 20000000 by omega, show ¬ absDelta > 10000000 by omega,
                      show absDelta ≤ 10000000 by omega, show ¬ absDelta > 4000000 by omega,
                      show absDelta ≤ 4000000 by omega, show ¬ absDelta > 2000000 by omega,
                      show absDelta ≤ 2000000 by omega, show absDelta > 1000000 by omega,
                      show ¬ absDelta ≤ 1000000 by omega, if_true, if_false]
                  · simp only [show ¬ absDelta > 500000000 by omega,
                      show absDelta ≤ 500000000 by omega,
                      show ¬ absDelta > 200000000 by omega,
                      show absDelta ≤ 200000000 by omega,
                      show ¬ absDelta > 100000000 by omega,
                      show absDelta ≤ 100000000 by omega, show ¬ absDelta > 40000000 by omega,
                      show absDelta ≤ 40000000 by omega, show ¬ absDelta > 20000000 by omega,
                      show absDelta ≤ 20000000 by omega, show ¬ absDelta > 10000000 by omega,
                      show absDelta ≤ 10000000 by omega, show ¬ absDelta > 4000000 by omega,
                      show absDelta ≤ 4000000 by omega, show ¬ absDelta > 2000000 by omega,
                      show absDelta ≤ 2000000 by omega, show ¬ absDelta > 1000000 by omega,
                      show absDelta ≤ 1000000 by omega, if_true, if_false]

theorem selectDeviation_nonneg (deviation absDelta : Int) (h : 0 ≤ deviation) :
    0 ≤ selectDeviation deviation absDelta := by
  rw [selectDeviation_eq]
  unfold specStep
  split_ifs <;> omega

/-- C6, as stated, fails where the average deviation is `0` (one sample whose
duration is the desired duration, or no sample at all): the table gives the
step `0`, but the chain of comparisons assigns nothing, so `Regulate` applies
the value `deviation` had before: `5000` in the initial state, where the
period goes from `100000` to `95000`, and `10` in a state whose earlier
invocation selected `10`. -/
theorem C6_zero_deviation_keeps_earlier_step :
    averageDelta [NewTemporalFragment 0 10000000] = 0 ∧
    averageDelta [] = 0 ∧
    specStep |0| = 0 ∧
    (Regulate [NewTemporalFragment 0 10000000] Regulator.initial).deviation = 5000 ∧
    (Regulate [NewTemporalFragment 0 10000000] Regulator.initial).period = 95000 ∧
    (Regulate [] Regulator.initial).period = 95000 ∧
    (Regulate [NewTemporalFragment 0 10000000]
      { deviation := 10, period := 100000, clockPeriod := 100000 }).deviation = 10 ∧
    (Regulate [NewTemporalFragment 0 10000000]
      { deviation := 10, period := 100000, clockPeriod := 100000 }).period = 99990 :=
  ⟨by decide, by decide, by decide, by decide, by decide, by decide, by decide, by decide⟩

/-- C6, amended: the step `Regulate` applies to the period is the value of the
nine-bucket table at the absolute average deviation whenever that deviation is
above 1/1000 s (so `0` for deviations above 1/1000 s and up to 1/500 s); for an
absolute average deviation of at most 1/1000 s, `0` included, it is the step of
the state before the invocation. That step is what the period moves by. -/
theorem C6_step_is_table_above_one_millisecond (timeline : List TemporalFragment)
    (s : Regulator) :
    Second / 1000 = 1000000 ∧
    (Regulate timeline s).deviation =
      (if |averageDelta timeline| ≤ Second / 1000 then s.deviation
       else specStep |averageDelta timeline|) ∧
    ((Regulate timeline s).period = s.period + (Regulate timeline s).deviation ∨
      (Regulate timeline s).period = s.period - (Regulate timeline s).deviation) := by
  refine ⟨by decide, selectDeviation_eq s.deviation |averageDelta timeline|, ?_⟩
  by_cases h : averageDelta timeline < 0
  · exact Or.inl (by simp [Regulate, h])
  · exact Or.inr (by simp [Regulate, h])

end regulation

namespace regulation

theorem Regulate_deviation_nonneg (timeline : List TemporalFragment) (s : Regulator)
    (h : 0 ≤ s.deviation) : 0 ≤ (Regulate timeline s).deviation :=
  selectDeviation_nonneg s.deviation |averageDelta timeline| h

/-- The step variable is never negative in a state the regulator can reach
from a state in which it is not negative. -/
theorem regulateAll_deviation_nonneg (cycles : List (List TemporalFragment)) (s : Regulator)
    (h : 0 ≤ s.deviation) : 0 ≤ (regulateAll cycles s).deviation := by
  induction cycles generalizing s with
  | nil => exact h
  | cons timeline cycles ih =>
    exact ih (Regulate timeline s) (Regulate_deviation_nonneg timeline s h)

/-- With a step that is not negative, one invocation raises the period (or
keeps it) when the average deviation is negative and lowers it (or keeps it)
otherwise. -/
theorem Regulate_direction (timeline : List TemporalFragment) (s : Regulator)
    (h : 0 ≤ s.deviation) :
    (averageDelta timeline < 0 → s.period ≤ (Regulate timeline s).period) ∧
    (¬ averageDelta timeline < 0 → (Regulate timeline s).period ≤ s.period) := by
  have hd := Regulate_deviation_nonneg timeline s h
  constructor
  · intro hneg
    have : (Regulate timeline s).period = s.period + (Regulate timeline s).deviation := by
      simp [Regulate, hneg]
    omega
  · intro hpos
    have : (Regulate timeline s).period = s.period - (Regulate timeline s).deviation := by
      simp [Regulate, hpos]
    omega

/-- C10: in every state the regulator reaches from its initial state the step
variable is not negative, and three consecutive invocations of `Regulate` on
the same set of samples change the period in one direction: the three changes
are all `≥ 0` or all `≤ 0`. -/
theorem C10_constant_bias_is_monotone (cycles : List (List TemporalFragment))
    (timeline : List TemporalFragment) :
    0 ≤ (regulateAll cycles Regulator.initial).deviation ∧
    ((regulateAll cycles Regulator.initial).period ≤
        (Regulate timeline (regulateAll cycles Regulator.initial)).period ∧
      (Regulate timeline (regulateAll cycles Regulator.initial)).period ≤
        (Regulate timeline (Regulate timeline (regulateAll cycles Regulator.initial))).period ∧
      (Regulate timeline (Regulate timeline (regulateAll cycles Regulator.initial))).period ≤
        (Regulate timeline (Regulate timeline
          (Regulate timeline (regulateAll cycles Regulator.initial)))).period
    ∨
     (Regulate timeline (regulateAll cycles Regulator.initial)).period ≤
        (regulateAll cycles Regulator.initial).period ∧
      (Regulate timeline (Regulate timeline (regulateAll cycles Regulator.initial))).period ≤
        (Regulate timeline (regulateAll cycles Regulator.initial)).period ∧
      (Regulate timeline (Regulate timeline
          (Regulate timeline (regulateAll cycles Regulator.initial)))).period ≤
        (Regulate timeline (Regulate timeline (regulateAll cycles Regulator.initial))).period) := by
  have h0 : 0 ≤ (regulateAll cycles Regulator.initial).deviation :=
    regulateAll_deviation_nonneg cycles Regulator.initial (by decide)
  refine ⟨h0, ?_⟩
  generalize regulateAll cycles Regulator.initial = s at h0
  have h1 := Regulate_deviation_nonneg timeline s h0
  have h2 := Regulate_deviation_nonneg timeline _ h1
  by_cases hneg : averageDelta timeline < 0
  · exact Or.inl ⟨(Regulate_direction timeline s h0).1 hneg,
      (Regulate_direction timeline _ h1).1 hneg, (Regulate_direction timeline _ h2).1 hneg⟩
  · exact Or.inr ⟨(Regulate_direction timeline s h0).2 hneg,
      (Regulate_direction timeline _ h1).2 hneg, (Regulate_direction timeline _ h2).2 hneg⟩

end regulation

/-! ## The activation helpers and the registry of kernels -/

namespace impulse

/-- C11: `OnBeatNumber(n, action)` puts exactly one new kernel behind the
kernels already registered, created by `newActionPotential` around a potential
that is true exactly for the contexts with `Beat = n` (and changes nothing),
so that the fresh kernel launches its action on such a context and on no
other; `OnDownbeat(action)` is `OnBeatNumber(0, action)`, its potential true
exactly when `Beat = 0`. -/
theorem C11_on_beat_number_predicate {σ : Type} [Inhabited σ] (c : Clock σ) (id : Nat)
    (n : Int) (env : σ) (ctx : Context) :
    (OnBeatNumber c id n).kernels =
      c.kernels ++ [newActionPotential id (beatNumberPotential n) default] ∧
    (OnBeatNumber c id n).kernels.length = c.kernels.length + 1 ∧
    (newActionPotential id (beatNumberPotential n) env).ap.potential = beatNumberPotential n ∧
    (((beatNumberPotential n : PotentialFunc σ) env ctx).1 = true ↔ ctx.Beat = n) ∧
    ((beatNumberPotential n : PotentialFunc σ) env ctx).2 = env ∧
    ((Execute (newActionPotential id (beatNumberPotential n) env) ctx).running = 1 ↔
      ctx.Beat = n) ∧
    OnDownbeat c id = OnBeatNumber c id 0 ∧
    (OnDownbeat c id).kernels =
      c.kernels ++ [newActionPotential id (beatNumberPotential 0) default] ∧
    (((beatNumberPotential 0 : PotentialFunc σ) env ctx).1 = true ↔ ctx.Beat = 0) := by
  refine ⟨rfl, ?_, rfl, ?_, rfl, ?_, rfl, rfl, ?_⟩
  · simp [OnBeatNumber, Clock.AddKernel, Slice.Add]
  · simp [beatNumberPotential]
  · by_cases h : ctx.Beat = n
    · simp [Execute, newActionPotential, beatNumberPotential, h]
    · simp [Execute, newActionPotential, beatNumberPotential, h]
  · simp [beatNumberPotential]

theorem removeKernel_kernels {σ : Type} (c : Clock σ) (k : KernelState σ) :
    (c.RemoveKernel k).kernels = c.kernels.filter (fun x => decide (x.GetID ≠ k.GetID)) := by
  simp only [Clock.RemoveKernel, Slice.RemoveIf]
  congr 1
  funext x
  by_cases h : x.GetID = k.GetID <;> simp [h]

/-- C12: after `RemoveKernel(k)` no registered kernel has the identifier of
`k`; the registry is the old one with exactly the kernels of that identifier
taken out, the others in their old order; when no registered kernel has that
identifier the clock is unchanged; and `AddKernel(k)` followed by
`RemoveKernel(k)` gives back the clock when no registered kernel shares the
identifier of `k`. -/
theorem C12_remove_kernel_by_id {σ : Type} (c : Clock σ) (k : KernelState σ) :
    (∀ x ∈ (c.RemoveKernel k).kernels, x.GetID ≠ k.GetID) ∧
    (c.RemoveKernel k).kernels = c.kernels.filter (fun x => decide (x.GetID ≠ k.GetID)) ∧
    (∀ x, x ∈ (c.RemoveKernel k).kernels ↔ x ∈ c.kernels ∧ x.GetID ≠ k.GetID) ∧
    List.Sublist (c.RemoveKernel k).kernels c.kernels ∧
    ((∀ x ∈ c.kernels, x.GetID ≠ k.GetID) → c.RemoveKernel k = c) ∧
    ((∀ x ∈ c.kernels, x.GetID ≠ k.GetID) → (c.AddKernel k).RemoveKernel k = c) := by
  have hf := removeKernel_kernels c k
  refine ⟨?_, hf, ?_, ?_, ?_, ?_⟩
  · intro x hx
    rw [hf, List.mem_filter] at hx
    simpa using hx.2
  · intro x
    rw [hf, List.mem_filter]
    simp
  · rw [hf]
    exact List.filter_sublist _
  · intro h
    have : (c.RemoveKernel k).kernels = c.kernels := by
      rw [hf, List.filter_eq_self]
      intro x hx
      simpa using h x hx
    cases c
    simp only [Clock.RemoveKernel] at this ⊢
    simp only [this]
  · intro h
    have h1 : ((c.AddKernel k).RemoveKernel k).kernels = c.kernels := by
      rw [removeKernel_kernels]
      simp only [Clock.AddKernel, Slice.Add, List.filter_append]
      have h2 : c.kernels.filter (fun x => decide (x.GetID ≠ k.GetID)) = c.kernels := by
        rw [List.filter_eq_self]
        intro x hx
        simpa using h x hx
      rw [h2]
      simp
    cases c
    simp only [Clock.RemoveKernel, Clock.AddKernel] at h1 ⊢
    simp only [h1]

theorem C12_remove_kernel_by_id_witness :
    (∀ x ∈ ({ ID := 1, Period := 4, kernels := [EveryNthBeat 2 1, EveryNthBeat 3 2] } :
        Clock Int).kernels, x.GetID ≠ (EveryNthBeat 5 7).GetID) ∧
    (({ ID := 1, Period := 4, kernels := [EveryNthBeat 2 1, EveryNthBeat 3 2] } :
        Clock Int).AddKernel (EveryNthBeat 5 7)).RemoveKernel (EveryNthBeat 5 7) =
      ({ ID := 1, Period := 4, kernels := [EveryNthBeat 2 1, EveryNthBeat 3 2] } : Clock Int) ∧
    ((({ ID := 1, Period := 4, kernels := [EveryNthBeat 2 1, EveryNthBeat 3 2] } :
        Clock Int).RemoveKernel (EveryNthBeat 2 9)).kernels.map KernelState.GetID = [3]) :=
  ⟨by decide,
    (C12_remove_kernel_by_id
      ({ ID := 1, Period := 4, kernels := [EveryNthBeat 2 1, EveryNthBeat 3 2] } : Clock Int)
      (EveryNthBeat 5 7)).2.2.2.2.2 (by decide),
    by decide⟩

end impulse

/-! ## Identifiers -/

namespace core

/-- While the counter stays below `2 ^ 64`, consecutive calls return the
consecutive numbers after `masterId`. -/
theorem nextIDs_eq_range (n : Nat) (masterId : Nat) (h : masterId + n < 2 ^ 64) :
    nextIDs masterId n = List.range' (masterId + 1) n := by
  induction n generalizing masterId with
  | zero => rfl
  | succ n ih =>
    have hm : (masterId + 1) % 2 ^ 64 = masterId + 1 := Nat.mod_eq_of_lt (by omega)
    simp only [nextIDs, NextID, hm, List.range'_succ]
    rw [ih (masterId + 1) (by omega)]

end core

namespace impulse

/-- The identifiers of consecutively created clocks and kernels are the values
consecutive calls of `NextID` return. -/
theorem createAll_ids {σ : Type} (reqs : List (Request σ)) (masterId : Nat) :
    (createAll masterId reqs).map Entity.ID = core.nextIDs masterId reqs.length := by
  induction reqs generalizing masterId with
  | nil => rfl
  | cons r rs ih =>
    cases r with
    | clock period =>
      simp only [createAll, create, List.map_cons, List.length_cons, core.nextIDs, ih]
      rfl
    | kernel potential env =>
      simp only [createAll, create, List.map_cons, List.length_cons, core.nextIDs, ih]
      rfl

/-- C13: starting from `masterId = 0`, the first call of `NextID` returns `1`,
every call returns the stored value plus one modulo `2 ^ 64` and stores it, so
`n < 2 ^ 64` consecutive calls return `1, 2, ..., n`: pairwise distinct, and a
later call returns a larger value than an earlier one. The clocks and kernels
made by fewer than `2 ^ 64` calls of `NewClock` and `newActionPotential`
therefore carry pairwise distinct identifiers. -/
theorem C13_next_id_increasing {σ : Type} (n : Nat) (reqs : List (Request σ))
    (masterId : Nat) (hn : n < 2 ^ 64) (hr : reqs.length < 2 ^ 64) :
    (core.NextID 0).1 = 1 ∧
    (core.NextID masterId).1 = (masterId + 1) % 2 ^ 64 ∧
    (core.NextID masterId).2 = (core.NextID masterId).1 ∧
    core.nextIDs 0 n = List.range' 1 n ∧
    (core.nextIDs 0 n).Nodup ∧
    (core.nextIDs 0 n).Pairwise (fun earlier later => earlier < later) ∧
    (createAll 0 reqs).map Entity.ID = List.range' 1 reqs.length ∧
    ((createAll 0 reqs).map Entity.ID).Nodup := by
  have h1 : core.nextIDs 0 n = List.range' 1 n := by
    simpa using core.nextIDs_eq_range n 0 (by omega)
  have h2 : (createAll 0 reqs).map Entity.ID = List.range' 1 reqs.length := by
    rw [createAll_ids]
    simpa using core.nextIDs_eq_range reqs.length 0 (by omega)
  refine ⟨by decide, rfl, rfl, h1, ?_, ?_, h2, ?_⟩
  · rw [h1]; exact List.nodup_range' 1 n
  · rw [h1]; exact List.pairwise_lt_range' 1 n
  · rw [h2]; exact List.nodup_range' 1 reqs.length

theorem C13_next_id_increasing_witness :
    (3 : Nat) < 2 ^ 64 ∧
    ([Request.clock 100000, Request.kernel (everyNthPotential 2) 0,
        Request.kernel (beatNumberPotential 0) 0] : List (Request Int)).length < 2 ^ 64 ∧
    core.nextIDs 0 3 = [1, 2, 3] ∧
    (createAll 0 ([Request.clock 100000, Request.kernel (everyNthPotential 2) 0,
        Request.kernel (beatNumberPotential 0) 0] : List (Request Int))).map Entity.ID =
      List.range' 1 3 :=
  ⟨by decide, by decide, by decide,
    (C13_next_id_increasing 3
      ([Request.clock 100000, Request.kernel (everyNthPotential 2) 0,
        Request.kernel (beatNumberPotential 0) 0] : List (Request Int)) 41
      (by decide) (by decide)).2.2.2.2.2.2.1⟩

end impulse

/-! ## The barrier of a beat -/

namespace impulse

/-- Every path through `Execute` calls `Done()` once. -/
theorem Execute_doneSignals {σ : Type} (k : KernelState σ) (ctx : Context) :
    (Execute k ctx).doneSignals = k.doneSignals + 1 := by
  cases hx : k.ap.executing with
  | true => simp [Execute, hx]
  | false =>
    cases hp : (k.ap.potential k.env ctx).1 with
    | true => simp [Execute, hx, hp]
    | false => simp [Execute, hx, hp]

/-- When every `Execute` of a beat has returned, the kernels are the dispatched
ones and the counter of the wait group is where it was before the beat. -/
theorem dispatchAll_eq {σ : Type} (ctx : Context) (ks : List (KernelState σ)) (wg : Int) :
    dispatchAll ctx ks wg = (ks.map (dispatch ctx), wg) := by
  induction ks generalizing wg with
  | nil => rfl
  | cons k ks ih =>
    have hd : ((dispatch ctx k).doneSignals : Int) - (k.doneSignals : Int) = 1 := by
      unfold dispatch
      rw [Execute_doneSignals]
      push_cast
      omega
    simp only [dispatchAll, hd, ih, List.map_cons]
    congr 1
    omega

/-- C14: `Execute` signals the barrier exactly once on every path: busy,
potential false, potential true. On the last path the signal is given while
the launched action is still running (one more running instance, no new
completion). So in a beat in which the loop adds `1` for each kernel of its
snapshot, the counter is back at `0` when the `Execute` calls have returned,
for any number of kernels in any state. -/
theorem C14_barrier_returns_to_zero {σ : Type} (k : KernelState σ) (ctx : Context)
    (ks : List (KernelState σ)) :
    (Execute k ctx).doneSignals = k.doneSignals + 1 ∧
    (Execute k ctx).running =
      k.running + (if !k.ap.executing && (k.ap.potential k.env ctx).1 then 1 else 0) ∧
    (Execute k ctx).completions = k.completions ∧
    (dispatchAll ctx ks 0).1 = ks.map (dispatch ctx) ∧
    (dispatchAll ctx ks 0).2 = 0 := by
  refine ⟨Execute_doneSignals k ctx, ?_, ?_, ?_, ?_⟩
  · cases hx : k.ap.executing with
    | true => simp [Execute, hx]
    | false =>
      cases hp : (k.ap.potential k.env ctx).1 with
      | true => simp [Execute, hx, hp]
      | false => simp [Execute, hx, hp]
  · cases hx : k.ap.executing with
    | true => simp [Execute, hx]
    | false =>
      cases hp : (k.ap.potential k.env ctx).1 with
      | true => simp [Execute, hx, hp]
      | false => simp [Execute, hx, hp]
  · rw [dispatchAll_eq]
  · rw [dispatchAll_eq]

end impulse

/-! ## The beat counter under a changing period -/

namespace impulse

/-- With positive periods the counter is never negative and stays below the
value of `Period` that the latest comparison read. -/
theorem beat_below_compared {σ : Type} (evs : List ClockEvent) :
    ∀ (l : LoopState σ) (compared : Int),
      (∀ e ∈ evs, e.positivePeriod = true) → 0 < l.clock.Period → 0 ≤ l.beat →
      l.beat < compared →
      0 ≤ (evs.foldl clockStep l).beat ∧
      (evs.foldl clockStep l).beat < comparedPeriod l.clock.Period compared evs ∧
      0 < (evs.foldl clockStep l).clock.Period := by
  induction evs with
  | nil => intro l compared _ hP h0 h1; exact ⟨h0, h1, hP⟩
  | cons e evs ih =>
    intro l compared hw hP h0 h1
    have hw2 : ∀ x ∈ evs, x.positivePeriod = true :=
      fun x hx => hw x (List.mem_cons_of_mem e hx)
    cases e with
    | tick now =>
      have hb : 0 ≤ nextBeat l.clock.Period l.beat ∧
          nextBeat l.clock.Period l.beat < l.clock.Period := by
        unfold nextBeat
        by_cases hge : l.beat + 1 ≥ l.clock.Period
        · simp only [hge, if_true]; omega
        · simp only [hge, if_false]; omega
      exact ih (iteration now l) l.clock.Period hw2 hP hb.1 hb.2
    | complete i now =>
      exact ih (clockStep l (ClockEvent.complete i now)) compared hw2 hP h0 h1
    | setPeriod p =>
      have hp : 0 < p := by
        have := hw (ClockEvent.setPeriod p) (List.mem_cons_self _ _)
        simpa [ClockEvent.positivePeriod] using this
      exact ih (clockStep l (ClockEvent.setPeriod p)) compared hw2 hp h0 h1

/-- C15, as stated, fails when a write lowers the period below the counter:
with period `5`, after three iterations the counter is `3`; the period is then
set to `2`, and the next context is built with `Beat = 3` while `Period` is
`2`. -/
theorem C15_lowered_period_leaves_beat_outside :
    (∀ e ∈ [ClockEvent.tick 1, ClockEvent.tick 2, ClockEvent.tick 3, ClockEvent.setPeriod 2],
      e.positivePeriod = true) ∧
    (Start ({ ID := 1, Period := 5, kernels := [] } : Clock Unit) 0
      [ClockEvent.tick 1, ClockEvent.tick 2, ClockEvent.tick 3,
        ClockEvent.setPeriod 2]).clock.Period = 2 ∧
    (Start ({ ID := 1, Period := 5, kernels := [] } : Clock Unit) 0
      [ClockEvent.tick 1, ClockEvent.tick 2, ClockEvent.tick 3, ClockEvent.setPeriod 2,
        ClockEvent.tick 4]).built.getLast? = some (loopContext 4 3) ∧
    ¬ ((loopContext 4 3).Beat < 2) := by
  decide

/-- C15, amended: in every run of iterations, completions and writes of
positive values to `Period`, starting from a positive period, the context the
next iteration builds has `0 ≤ Beat`, and `Beat` is below the value `Period`
had at the latest comparison of the counter with it (line 93 of the preceding
iteration; the initial period before the first iteration). -/
theorem C15_beat_below_compared_period {σ : Type} (c : Clock σ) (t0 : Int)
    (evs : List ClockEvent) (now : Int)
    (hP : 0 < c.Period) (hw : ∀ e ∈ evs, e.positivePeriod = true) :
    (Start c t0 (evs ++ [ClockEvent.tick now])).built =
      (Start c t0 evs).built ++ [loopContext now (Start c t0 evs).beat] ∧
    (loopContext now (Start c t0 evs).beat).Beat = (Start c t0 evs).beat ∧
    0 ≤ (Start c t0 evs).beat ∧
    (Start c t0 evs).beat < comparedPeriod c.Period c.Period evs ∧
    0 < (Start c t0 evs).clock.Period := by
  have h := beat_below_compared evs
    ({ clock := c, beat := 0, lastNow := t0, pulseCount := 0, pulseCountStart := t0,
       built := [] } : LoopState σ) c.Period hw hP (le_refl 0) hP
  refine ⟨?_, rfl, h.1, h.2.1, h.2.2⟩
  rw [Start_append]
  rfl

theorem C15_beat_below_compared_period_witness :
    (0 : Int) < ({ ID := 1, Period := 5, kernels := [] } : Clock Unit).Period ∧
    (∀ e ∈ [ClockEvent.tick 1, ClockEvent.tick 2, ClockEvent.tick 3, ClockEvent.setPeriod 2],
      e.positivePeriod = true) ∧
    comparedPeriod 5 5
      [ClockEvent.tick 1, ClockEvent.tick 2, ClockEvent.tick 3, ClockEvent.setPeriod 2] = 5 ∧
    (Start ({ ID := 1, Period := 5, kernels := [] } : Clock Unit) 0
      [ClockEvent.tick 1, ClockEvent.tick 2, ClockEvent.tick 3,
        ClockEvent.setPeriod 2]).beat <
      comparedPeriod ({ ID := 1, Period := 5, kernels := [] } : Clock Unit).Period
        ({ ID := 1, Period := 5, kernels := [] } : Clock Unit).Period
        [ClockEvent.tick 1, ClockEvent.tick 2, ClockEvent.tick 3, ClockEvent.setPeriod 2] :=
  ⟨by decide, by decide, by decide,
    (C15_beat_below_compared_period ({ ID := 1, Period := 5, kernels := [] } : Clock Unit) 0
      [ClockEvent.tick 1, ClockEvent.tick 2, ClockEvent.tick 3, ClockEvent.setPeriod 2] 4
      (by decide) (by decide)).2.2.2.1⟩

end impulse

/-! ## Temporal samples and the domain of the period -/

namespace regulation

/-- C16 on the code: `NewTemporalFragment` records `lastDuration = d` and
`delta = d - desiredDuration`, but `absDelta` is the absolute value of the
duration `d` itself, not of the signed deviation. For a duration of 11 ms the
deviation is 1 ms and `absDelta` is 11 ms; for a duration of `0` the deviation
is -10 ms and `absDelta` is `0`. -/
theorem C16_absDelta_is_abs_of_duration (now d : Int) :
    (NewTemporalFragment now d).lastNow = now ∧
    (NewTemporalFragment now d).lastDuration = d ∧
    (NewTemporalFragment now d).delta = d - desiredDuration ∧
    (NewTemporalFragment now d).absDelta = |d| ∧
    (NewTemporalFragment 0 11000000).delta = 1000000 ∧
    (NewTemporalFragment 0 11000000).absDelta = 11000000 ∧
    (NewTemporalFragment 0 11000000).absDelta ≠ |(NewTemporalFragment 0 11000000).delta| ∧
    (NewTemporalFragment 0 0).delta = -10000000 ∧
    (NewTemporalFragment 0 0).absDelta = 0 :=
  ⟨rfl, rfl, rfl, rfl, by decide, by decide, by decide, by decide, by decide⟩

theorem specStep_le (absDelta : Int) : specStep absDelta ≤ 50000 := by
  unfold specStep
  split_ifs <;> omega

theorem selectDeviation_le (deviation absDelta : Int) :
    selectDeviation deviation absDelta ≤ max 50000 deviation := by
  rw [selectDeviation_eq]
  split_ifs
  · exact le_max_right _ _
  · exact le_trans (specStep_le absDelta) (le_max_left _ _)

/-- C17, as stated, fails: with one sample of one second (deviation 990 ms)
the initial state goes to period `50000`, which is positive, and the next
invocation writes the period `0` to the clock. -/
theorem C17_period_reaches_zero :
    averageDelta [NewTemporalFragment 0 1000000000] = 990000000 ∧
    0 < (Regulate [NewTemporalFragment 0 1000000000] Regulator.initial).period ∧
    (Regulate [NewTemporalFragment 0 1000000000] Regulator.initial).period = 50000 ∧
    (Regulate [NewTemporalFragment 0 1000000000]
      (Regulate [NewTemporalFragment 0 1000000000] Regulator.initial)).period = 0 ∧
    (Regulate [NewTemporalFragment 0 1000000000]
      (Regulate [NewTemporalFragment 0 1000000000] Regulator.initial)).clockPeriod = 0 :=
  ⟨by decide, by decide, by decide, by decide, by decide⟩

/-- C17, amended: from a state with a positive period and a step that is not
negative, the period `Regulate` writes to the clock is positive exactly when
the average deviation is negative or the step selected in this invocation is
smaller than the old period. The selected step is at most the larger of
`50000` and the old step, so the written period is positive whenever the old
period is above both. -/
theorem C17_period_positive_iff (timeline : List TemporalFragment) (s : Regulator)
    (hp : 0 < s.period) (hd : 0 ≤ s.deviation) :
    (Regulate timeline s).clockPeriod = (Regulate timeline s).period ∧
    (0 < (Regulate timeline s).clockPeriod ↔
      (averageDelta timeline < 0 ∨ (Regulate timeline s).deviation < s.period)) ∧
    (Regulate timeline s).deviation ≤ max 50000 s.deviation ∧
    (max 50000 s.deviation < s.period → 0 < (Regulate timeline s).clockPeriod) := by
  have hn := Regulate_deviation_nonneg timeline s hd
  have hle : (Regulate timeline s).deviation ≤ max 50000 s.deviation :=
    selectDeviation_le s.deviation |averageDelta timeline|
  have hiff : 0 < (Regulate timeline s).period ↔
      (averageDelta timeline < 0 ∨ (Regulate timeline s).deviation < s.period) := by
    by_cases hneg : averageDelta timeline < 0
    · have : (Regulate timeline s).period = s.period + (Regulate timeline s).deviation := by
        simp [Regulate, hneg]
      constructor
      · intro _; exact Or.inl hneg
      · intro _; omega
    · have : (Regulate timeline s).period = s.period - (Regulate timeline s).deviation := by
        simp [Regulate, hneg]
      constructor
      · intro h; right; omega
      · intro h
        rcases h with h | h
        · exact absurd h hneg
        · omega
  refine ⟨rfl, hiff, hle, ?_⟩
  intro hmax
  exact hiff.2 (Or.inr (lt_of_le_of_lt hle hmax))

theorem C17_period_positive_iff_witness :
    0 < Regulator.initial.period ∧ 0 ≤ Regulator.initial.deviation ∧
    (Regulate [NewTemporalFragment 0 11000000] Regulator.initial).clockPeriod = 95000 ∧
    (0 < (Regulate [NewTemporalFragment 0 11000000] Regulator.initial).clockPeriod ↔
      (averageDelta [NewTemporalFragment 0 11000000] < 0 ∨
        (Regulate [NewTemporalFragment 0 11000000] Regulator.initial).deviation <
          Regulator.initial.period)) :=
  ⟨by decide, by decide, by decide,
    (C17_period_positive_iff [NewTemporalFragment 0 11000000] Regulator.initial
      (by decide) (by decide)).2.1⟩

end regulation

/-! ## The direction of the period adjustment -/

namespace regulation

/-- One sample of the given duration has the duration minus the desired
duration as its average. -/
theorem averageDelta_single (now duration : Int) :
    averageDelta [NewTemporalFragment now duration] = duration - desiredDuration := by
  simp [averageDelta, divisor, sumAndCount, NewTemporalFragment]

/-- Above 1/500 s the table gives a step of at least `10`. -/
theorem specStep_ge (absDelta : Int) (h : Second / 500 < absDelta) : 10 ≤ specStep absDelta := by
  unfold specStep
  split_ifs <;> omega

/-- C7, as stated, fails on its own scenario: with a desired duration of
10 ms, period `100000` and one sample of 11 ms the average deviation is
exactly +1 ms, for which the table gives the step `0`; no comparison of the
chain holds for 1 ms, so in the initial state `Regulate` takes off the step
`5000` it carried and writes `95000`, not `100000 - 0`. -/
theorem C7_scenario_uses_carried_step :
    desiredDuration = 10000000 ∧
    averageDelta [NewTemporalFragment 0 11000000] = 1000000 ∧
    specStep |averageDelta [NewTemporalFragment 0 11000000]| = 0 ∧
    Regulator.initial.period = 100000 ∧
    (Regulate [NewTemporalFragment 0 11000000] Regulator.initial).period = 95000 ∧
    (Regulate [NewTemporalFragment 0 11000000] Regulator.initial).clockPeriod = 95000 ∧
    (Regulate [NewTemporalFragment 0 11000000] Regulator.initial).period ≠
      Regulator.initial.period - specStep |averageDelta [NewTemporalFragment 0 11000000]| :=
  ⟨by decide, by decide, by decide, by decide, by decide, by decide, by decide⟩

/-- C7, amended: `Regulate` changes the period by the step in force after the
chain of comparisons, which is the table value of the absolute average
deviation when that is above 1/1000 s and the step carried over from before
the invocation otherwise: the new period is the old one plus that step when
the average deviation is negative and the old one minus that step when it is
positive (or zero), and the clock's `Period` is the new period. With a carried
step that is not negative the period never moves with the sign of the
deviation, and it moves against it by at least `10` when the deviation is
beyond 1/500 s. In the scenario of one 11 ms sample at period `100000` the new
period is `100000` minus the carried step. -/
theorem C7_period_moves_by_step_in_force (timeline : List TemporalFragment)
    (s : Regulator) (hd : 0 ≤ s.deviation) :
    (Regulate timeline s).period =
      (if averageDelta timeline < 0 then
        s.period + (if |averageDelta timeline| ≤ Second / 1000 then s.deviation
                    else specStep |averageDelta timeline|)
       else
        s.period - (if |averageDelta timeline| ≤ Second / 1000 then s.deviation
                    else specStep |averageDelta timeline|)) ∧
    (Regulate timeline s).clockPeriod = (Regulate timeline s).period ∧
    (averageDelta timeline < 0 → s.period ≤ (Regulate timeline s).period) ∧
    (0 < averageDelta timeline → (Regulate timeline s).period ≤ s.period) ∧
    (averageDelta timeline < -(Second / 500) → s.period + 10 ≤ (Regulate timeline s).period) ∧
    (Second / 500 < averageDelta timeline → (Regulate timeline s).period + 10 ≤ s.period) ∧
    (∀ now deviation clockPeriod : Int,
      (Regulate [NewTemporalFragment now 11000000]
        { deviation := deviation, period := 100000, clockPeriod := clockPeriod }).clockPeriod =
          100000 - deviation) := by
  obtain ⟨_, _, _, _, _, _, _, h500, h1000⟩ := table_thresholds
  have hper : (Regulate timeline s).period =
      (if averageDelta timeline < 0 then
        s.period + (if |averageDelta timeline| ≤ Second / 1000 then s.deviation
                    else specStep |averageDelta timeline|)
       else
        s.period - (if |averageDelta timeline| ≤ Second / 1000 then s.deviation
                    else specStep |averageDelta timeline|)) := by
    simp only [Regulate]
    rw [selectDeviation_eq]
  refine ⟨hper, rfl, (Regulate_direction timeline s hd).1, ?_, ?_, ?_, ?_⟩
  · intro hpos
    exact (Regulate_direction timeline s hd).2 (by omega)
  · intro hlt
    have habs : |averageDelta timeline| = -averageDelta timeline := abs_of_neg (by omega)
    have hstep := specStep_ge |averageDelta timeline| (by rw [habs]; omega)
    rw [hper, if_pos (by omega), if_neg (by rw [habs]; omega)]
    omega
  · intro hgt
    have habs : |averageDelta timeline| = averageDelta timeline := abs_of_pos (by omega)
    have hstep := specStep_ge |averageDelta timeline| (by rw [habs]; omega)
    rw [hper, if_neg (by omega), if_neg (by rw [habs]; omega)]
    omega
  · intro now deviation clockPeriod
    have havg : averageDelta [NewTemporalFragment now 11000000] = 1000000 := by
      rw [averageDelta_single]; decide
    show (Regulate [NewTemporalFragment now 11000000]
        { deviation := deviation, period := 100000, clockPeriod := clockPeriod }).period = _
    simp only [Regulate, havg]
    rw [selectDeviation_eq]
    norm_num [h1000]

theorem C7_period_moves_by_step_in_force_witness :
    0 ≤ Regulator.initial.deviation ∧
    averageDelta [NewTemporalFragment 0 13000000] = 3000000 ∧
    (Regulate [NewTemporalFragment 0 13000000] Regulator.initial).period = 99990 ∧
    averageDelta [NewTemporalFragment 0 7000000] = -3000000 ∧
    (Regulate [NewTemporalFragment 0 7000000] Regulator.initial).period = 100010 ∧
    (Second / 500 < averageDelta [NewTemporalFragment 0 13000000] →
      (Regulate [NewTemporalFragment 0 13000000] Regulator.initial).period + 10 ≤
        Regulator.initial.period) :=
  ⟨by decide, by decide, by decide, by decide, by decide,
    (C7_period_moves_by_step_in_force [NewTemporalFragment 0 13000000] Regulator.initial
      (by decide)).2.2.2.2.2.1⟩

end regulation
